import Mathlib

/-!
Verification of the approximate record-linkage core of the musictool
repository (src/python/core/duplicate_finder.py, gap_analyzer.py,
gap_analyzer_fast.py).

The Python code is shallowly embedded: strings are `List Char` (the ASCII
fragment of Python's `re` character classes `\w`, `\s` and of `str.lower`),
catalogs are `List`s of record structures, pandas row indices are list
positions `0..n-1` (the parsers build the DataFrames with the default
RangeIndex), and the floating-point score arithmetic is modelled exactly
over `ℚ`.  The external `fuzzywuzzy.fuzz.ratio` scorer is not part of the
repository; it is modelled from the spec's contract (see `fuzzRatio`).
All definitions are structurally recursive so that concrete runs evaluate
inside the kernel.
-/

namespace MusicTool

/- The Batteries rational-number operations are `@[irreducible]`, which keeps
`decide` from evaluating concrete score arithmetic; re-allow unfolding inside
this file (the kernel is oblivious to reducibility attributes). -/
attribute [local semireducible] Rat.mul Rat.add Rat.sub Rat.inv Rat.ofScientific

/-! ## Character helpers (ASCII fragment of Python's `re` classes) -/

/-- Python's `\s` class: space, tab, newline, carriage return, vertical tab,
form feed (ASCII fragment). -/
def pyWs (c : Char) : Bool :=
  c == ' ' || c == '\t' || c == '\n' || c == '\r' || c == '\x0b' || c == '\x0c'

/-- Python's `\w` class: letters, digits, underscore (ASCII fragment). -/
def pyWord (c : Char) : Bool :=
  c.isAlpha || c.isDigit || c == '_'

/-- Python's `str.lower` on one character (ASCII fragment). -/
def pyLower (c : Char) : Char :=
  if 'A' ≤ c ∧ c ≤ 'Z' then Char.ofNat (c.toNat + 32) else c

/-- `startsWithL pat l` : `pat` is a leading fragment of `l`. -/
def startsWithL : List Char → List Char → Bool
  | [], _ => true
  | _ :: _, [] => false
  | p :: ps, c :: cs => p == c && startsWithL ps cs

/-- The `\b` test after a matched word: next char absent or not a word char. -/
def wordEndOk : List Char → Bool
  | [] => true
  | c :: _ => !pyWord c

/-! ## `re.sub(r'\b(the|a|an)\b', '', text)`

The Boolean argument records whether the character just before the current
position is a word character (`false` at the start of the string).  All three
alternatives `the`, `a`, `an` start with a word character, so the pattern's
leading `\b` holds exactly when that flag is `false`; the trailing `\b` is
`wordEndOk` on what follows.  `re.sub` tries the alternatives left to right
(`the`, then `a`, then `an`) at each position, deletes a match and resumes
scanning right after it (the last character of a matched article is a word
character, so the flag becomes `true`).  The bounded lookahead of the three
alternatives is expanded into list patterns so the recursion is structural:
at `t h e …` only `the` can match (the other alternatives start with `a`);
at `a n …` the alternative `a` always fails its trailing `\b` (`n` is a word
character), so only `an` is tried; at `a …` (next char not `n`) only `a` is
tried.  When no alternative matches, the head character is emitted and the
scan moves one position on. -/
def removeArts : Bool → List Char → List Char
  | _, [] => []
  | true, c :: rest => c :: removeArts (pyWord c) rest
  | false, 't' :: 'h' :: 'e' :: rest =>
    if wordEndOk rest then removeArts true rest
    else 't' :: removeArts true ('h' :: 'e' :: rest)
  | false, 'a' :: 'n' :: rest =>
    if wordEndOk rest then removeArts true rest
    else 'a' :: removeArts true ('n' :: rest)
  | false, 'a' :: rest =>
    if wordEndOk rest then removeArts true rest
    else 'a' :: removeArts true rest
  | false, c :: rest => c :: removeArts (pyWord c) rest

/-! ## `re.sub(r'\(.*?\)', '', text)` and the bracket variant

Non-greedy single-level deletion: at an opening delimiter the regex engine
looks for the nearest closing delimiter with no newline in between (`.` does
not match `\n`); if found, the whole span is deleted and scanning resumes
after it, otherwise no match starts at this position and the engine moves on
by one character.  This is realised as a one-pass machine whose state buffers
the characters seen since a pending opening delimiter (in reverse order):
seeing the closing delimiter discards the buffer (the deleted span); seeing a
newline flushes the buffer verbatim — which is faithful because a buffered
span contains no closing delimiter before the newline, hence every opening
delimiter inside it also fails to match; the end of input flushes likewise. -/
def rmDelimsAux (openC closeC : Char) : List Char → Option (List Char) → List Char
  | [], none => []
  | [], some buf => buf.reverse
  | c :: rest, none =>
    if c = openC then rmDelimsAux openC closeC rest (some [c])
    else c :: rmDelimsAux openC closeC rest none
  | c :: rest, some buf =>
    if c = closeC then rmDelimsAux openC closeC rest none
    else if c = '\n' then buf.reverse ++ '\n' :: rmDelimsAux openC closeC rest none
    else rmDelimsAux openC closeC rest (some (c :: buf))

def removeDelims (openC closeC : Char) (l : List Char) : List Char :=
  rmDelimsAux openC closeC l none

/-! ## `re.sub(r'\s*-\s*(remix|edit|mix|version|remaster|remastered)\b.*', '', text)` -/

/-- The qualifier alternatives of the duplicate-finder normalizer. -/
def qualWords : List (List Char) :=
  [['r','e','m','i','x'], ['e','d','i','t'], ['m','i','x'],
   ['v','e','r','s','i','o','n'], ['r','e','m','a','s','t','e','r'],
   ['r','e','m','a','s','t','e','r','e','d']]

def dropWs (l : List Char) : List Char := l.dropWhile (fun c => pyWs c)

/-- After the `-`: `\s*` then one qualifier word followed by `\b`.  The greedy
`\s*` can only succeed with the full whitespace run, since every alternative
starts with a non-whitespace letter; success does not depend on which
alternative fires. -/
def qualAfterDash (l : List Char) : Bool :=
  qualWords.any (fun w => startsWithL w (dropWs l) && wordEndOk ((dropWs l).drop w.length))

/-- Does the qualifier pattern match starting exactly here?  `\s*-\s*word\b`:
the leading `\s*` must reach a `-` (whitespace characters are never `-`, so
only the full run works), then `qualAfterDash`. -/
def qualHit (l : List Char) : Bool :=
  match dropWs l with
  | c :: r2 => c == '-' && qualAfterDash r2
  | [] => false

/-- Global substitution of the qualifier pattern, scanning left to right.
A match extends over `.*`, i.e. up to (not including) the next newline or to
the end of the string.  The flag is `true` while inside a matched span that is
still being deleted; the newline that terminated `.*` is re-examined as an
ordinary position (it can itself begin the next match via the leading
`\s*`). -/
def qualAux : Bool → List Char → List Char
  | _, [] => []
  | false, c :: rest =>
    if qualHit (c :: rest) then qualAux true rest
    else c :: qualAux false rest
  | true, c :: rest =>
    if c = '\n' then
      if qualHit (c :: rest) then qualAux true rest
      else c :: qualAux false rest
    else qualAux true rest

def qualStrip (l : List Char) : List Char := qualAux false l

/-! ## The final three stages -/

/-- `re.sub(r'[^\w\s]', ' ', text)`. -/
def rmSpecials (l : List Char) : List Char :=
  l.map (fun c => if !pyWord c && !pyWs c then ' ' else c)

/-- `re.sub(r'\s+', ' ', text)`: every maximal whitespace run becomes one
space.  The flag records whether the previous character was whitespace (the
run already emitted its space). -/
def collapseWs : Bool → List Char → List Char
  | _, [] => []
  | prevWs, c :: rest =>
    if pyWs c then
      if prevWs then collapseWs true rest
      else ' ' :: collapseWs true rest
    else c :: collapseWs false rest

/-- Python `str.strip()` (ASCII whitespace). -/
def pyStrip (l : List Char) : List Char :=
  ((l.dropWhile (fun c => pyWs c)).reverse.dropWhile (fun c => pyWs c)).reverse

/-! ## The normalizer pipelines -/

/-- The shared body of `DuplicateFinder._normalize_text` (with
`stripQual = true`, which includes the trailing-qualifier substitution) and of
`GapAnalyzer._normalize_text` / `FastGapAnalyzer._normalize_text`
(`stripQual = false`): lowercase, drop stand-alone articles, drop `(...)`
and `[...]` spans, optionally drop `- remix/...` tails, replace the remaining
punctuation by spaces, collapse whitespace, trim. -/
def normalizeCore (stripQual : Bool) (l : List Char) : List Char :=
  pyStrip (collapseWs false (rmSpecials
    ((if stripQual then qualStrip else id)
      (removeDelims '[' ']' (removeDelims '(' ')'
        (removeArts false (l.map pyLower)))))))

/-- A raw pandas cell as the normalizers see it: Python `None`, a float `NaN`
(what pandas stores for a missing value — `pd.isna` is true exactly on these
two), or an actual string. -/
inductive RawText where
  | null : RawText
  | nanV : RawText
  | str : String → RawText
deriving DecidableEq, Inhabited

/-- `_normalize_text`: `None`, `NaN` and the empty string short-circuit to
`''` (`if not text or pd.isna(text): return ''`); otherwise the pipeline
runs.  Total — no exception is ever raised. -/
def normalizeRaw (stripQual : Bool) : RawText → String
  | RawText.null => ""
  | RawText.nanV => ""
  | RawText.str s => if s = "" then "" else ⟨normalizeCore stripQual s.data⟩

/-- `filepath.split('/')[-1]` (and the backslash pass): keep the text after
the last separator. -/
def lastSeg (sep : Char) (l : List Char) : List Char :=
  l.foldl (fun acc c => if c == sep then [] else acc.concat c) []

/-- `re.sub(r'\.[^.]*$', '', filename)`: drop the last `.extension`, if any
dot occurs. -/
def dropExt (l : List Char) : List Char :=
  match l.reverse.dropWhile (fun c => c ≠ '.') with
  | [] => l
  | _ :: r => r.reverse

/-- `DuplicateFinder._normalize_filename`: strip the directory part and the
extension, then normalize like track text (the duplicate-finder variant). -/
def normalizeFile : RawText → String
  | RawText.null => ""
  | RawText.nanV => ""
  | RawText.str s =>
    if s = "" then ""
    else normalizeRaw true (RawText.str ⟨dropExt (lastSeg '\\' (lastSeg '/' s.data))⟩)

/-! ## The similarity scorer

`fuzzywuzzy.fuzz.ratio` is an external dependency, not code of this
repository.  Modelled from the spec: "`ratio(a, b) -> integer 0..100`, a
normalized-edit-distance-style similarity (e.g., Levenshtein-ratio semantics:
100 = identical after normalization, 0 = completely dissimilar)".  The
Levenshtein ratio is `(lensum - dist) / lensum` where `dist` is the edit
distance with substitution cost 2, i.e. `lensum - 2·LCS(a,b)`, so the scaled
ratio is `200·LCS(a,b) / lensum`, rounded to an integer (`utils.intr`, i.e.
Python's round-half-to-even), and `100` when both strings are empty. -/

/-- Longest common subsequence length, structurally recursive on the first
list (`lcsStep x (lcs xs)` is the row for `x :: xs` given the row function
for `xs`). -/
def lcsStep (x : Char) (f : List Char → ℕ) : List Char → ℕ
  | [] => 0
  | y :: ys => if x = y then f ys + 1 else max (f (y :: ys)) (lcsStep x f ys)

def lcs : List Char → List Char → ℕ
  | [], _ => 0
  | x :: xs, ys => lcsStep x (lcs xs) ys

/-- Python `round` (half to even) of the fraction `num / den`, `den ≠ 0`. -/
def pyRound (num den : ℕ) : ℕ :=
  let q := num / den
  let r := num % den
  if 2 * r < den then q
  else if den < 2 * r then q + 1
  else if q % 2 = 0 then q else q + 1

/-- Modelled from the spec: the external `fuzz.ratio` scorer (see above). -/
def fuzzRatio (a b : List Char) : ℕ :=
  let s := a.length + b.length
  if s = 0 then 100 else pyRound (200 * lcs a b) s

/-- `fuzz.ratio` on two Lean strings. -/
def fuzzRatioS (a b : String) : ℕ := fuzzRatio a.data b.data

/-! ## The Duplicate Cluster Resolver (`DuplicateFinder`) -/

/-- One row of the digital collection DataFrame as `DuplicateFinder` reads
it (`NMLParser` output).  Numeric cells are modelled over `ℚ` (exact
rationals in place of Python floats), text cells as `RawText`. -/
structure Track where
  artist : RawText
  title : RawText
  album : RawText
  genre : RawText
  bpm : ℚ
  totaltime : ℚ
  bitrate : ℚ
  filetype : RawText
  filesize : ℚ
  location : RawText
  dateadded : RawText
  playcount : ℚ
deriving DecidableEq, Inhabited

/-- `DuplicateFinder._calculate_similarity`: dispatch on the method name;
unknown methods score 0.  `track2`'s fields are normalized here, the
reference track's normalized fields are passed in (as in the source). -/
def calculate_similarity (track2 : Track) (method : String)
    (refArtist refTitle refFilename : String) (refDuration : ℚ) : ℚ :=
  let artist2 := normalizeRaw true track2.artist
  let title2 := normalizeRaw true track2.title
  let filename2 := normalizeFile track2.location
  let duration2 := track2.totaltime
  if method = "artist_title" then
    let artistSim : ℚ := fuzzRatioS refArtist artist2
    let titleSim : ℚ := fuzzRatioS refTitle title2
    let combinedSim : ℚ :=
      fuzzRatio (refArtist.data ++ ' ' :: refTitle.data) (artist2.data ++ ' ' :: title2.data)
    titleSim * ((5 : ℚ)/10) + artistSim * ((3 : ℚ)/10) + combinedSim * ((2 : ℚ)/10)
  else if method = "title_only" then
    fuzzRatioS refTitle title2
  else if method = "filename" then
    fuzzRatioS refFilename filename2
  else if method = "duration" then
    let titleSim : ℚ := fuzzRatioS refTitle title2
    let durationSim : ℚ :=
      if refDuration > 0 ∧ duration2 > 0 then
        min 100 (max 0 (100 - (|refDuration - duration2| / 1000) * 5))
      else 0
    titleSim * ((7 : ℚ)/10) + durationSim * ((3 : ℚ)/10)
  else 0

/-- The similarity of two tracks under a method: `_find_similar_tracks`
normalizes the reference track once and calls `_calculate_similarity`. -/
def calcSimTracks (t1 t2 : Track) (method : String) : ℚ :=
  calculate_similarity t2 method
    (normalizeRaw true t1.artist) (normalizeRaw true t1.title)
    (normalizeFile t1.location) t1.totaltime

/-- One entry of the `similar_tracks` list: `(track, idx, similarity_score)`. -/
structure SimEntry where
  track : Track
  idx : ℕ
  score : ℚ
deriving DecidableEq

/-- One insertion step of the stable descending sort: an element moves left
past exactly the elements with strictly smaller score, so equal-score
elements keep their original relative order — the semantics of Python's
stable `list.sort(key=lambda x: x[2], reverse=True)`. -/
def insertDesc (x : SimEntry) : List SimEntry → List SimEntry
  | [] => [x]
  | y :: ys => if x.score < y.score then y :: insertDesc x ys else x :: y :: ys

/-- Stable sort by descending score (model of the Python stable sort). -/
def sortDesc (l : List SimEntry) : List SimEntry := l.foldr insertDesc []

/-- The body of the `_find_similar_tracks` scan for one position `i`: skip
positions at or before the reference index and already-processed ones; keep
`(track, idx, similarity_score)` when the score reaches the threshold. -/
def simCand (catalog : List Track) (refT : Track) (refIdx : ℕ) (thr : ℚ)
    (method : String) (processed : List ℕ) (i : ℕ) : Option SimEntry :=
  if i ≤ refIdx ∨ i ∈ processed then none
  else if thr ≤ calcSimTracks refT (catalog.getD i default) method then
    some ⟨catalog.getD i default, i, calcSimTracks refT (catalog.getD i default) method⟩
  else none

/-- `DuplicateFinder._find_similar_tracks`: scan all positions, skip those at
or before the reference index and those already processed, keep candidates
scoring at least the threshold, and sort by descending score. -/
def find_similar_tracks (catalog : List Track) (refT : Track) (refIdx : ℕ)
    (thr : ℚ) (method : String) (processed : List ℕ) : List SimEntry :=
  sortDesc ((List.range catalog.length).filterMap
    (simCand catalog refT refIdx thr method processed))

/-- One output row (`_create_duplicate_record`); the remaining copied columns
are projections of `track`. -/
structure DupRow where
  group_id : ℕ
  rank : ℕ
  status : String
  similarity : ℚ
  track : Track
  track_index : ℕ
deriving DecidableEq

/-- The rows emitted for one duplicate group: the seed (`original`, rank 1,
similarity 100) followed by the sorted qualifying candidates, each with
rank `len([t for t in similar_tracks if t[2] >= similarity_score]) + 2` —
the count is over the whole `similar_tracks` list and includes the candidate
itself. -/
def dupBlock (sims : List SimEntry) (track : Track) (idx gid : ℕ) : List DupRow :=
  ⟨gid, 1, "original", 100, track, idx⟩ ::
    sims.map (fun e =>
      ⟨gid, (sims.countP (fun x => e.score ≤ x.score)) + 2,
        "duplicate", e.score, e.track, e.idx⟩)

/-- The body of the `find_duplicates` loop for one position `idx`, acting on
the accumulated `(duplicate_groups, processed_tracks)` state.  A fresh group
id is `len(duplicate_groups) + 1` — one plus the number of rows emitted so
far.  The seed and every emitted candidate are marked processed. -/
def dupStep (catalog : List Track) (thr : ℚ) (method : String)
    (st : List DupRow × List ℕ) (idx : ℕ) : List DupRow × List ℕ :=
  if idx ∈ st.2 then st
  else if find_similar_tracks catalog (catalog.getD idx default) idx thr method st.2 = []
    then st
  else
    (st.1 ++ dupBlock
        (find_similar_tracks catalog (catalog.getD idx default) idx thr method st.2)
        (catalog.getD idx default) idx (st.1.length + 1),
      (st.2 ++ (find_similar_tracks catalog (catalog.getD idx default) idx thr method
        st.2).map (fun e => e.idx)) ++ [idx])

/-- `DuplicateFinder.find_duplicates`: guard the empty collection, then a
single left-to-right pass over positions `0..n-1`. -/
def find_duplicates (catalog : List Track) (thr : ℚ) (method : String) :
    List DupRow :=
  if catalog = [] then []
  else ((List.range catalog.length).foldl (dupStep catalog thr method) ([], [])).1

/-! ## The Nearest-Match Resolver (`FastGapAnalyzer` / `GapAnalyzer`) -/

/-- One row of the physical collection DataFrame (Discogs side). -/
structure PhysTrack where
  artist : RawText
  title : RawText
  album : RawText
  label : RawText
  format_type : RawText
  release_year : RawText
  catalog_number : RawText
deriving DecidableEq, Inhabited

/-- One row of the digital collection DataFrame as the gap analyzers read it
(`bpm` is modelled numerically — it is only copied into results). -/
structure DigTrack where
  artist : RawText
  title : RawText
  album : RawText
  genre : RawText
  bpm : ℚ
deriving DecidableEq, Inhabited

/-- The gap-analyzer normalizer (no qualifier stripping) applied to a raw
cell, as a character list. -/
def normG (r : RawText) : List Char := (normalizeRaw false r).data

/-- Does position `i` of the digital catalog sit in the bucket that
`_find_track_in_digital_fast` consults for query prefixes `pA`/`pT`?
This is the union of the three `_create_search_index` buckets: the index
registers position `i` under `artist:<first 3 chars>` when its normalized
artist is non-empty (the whole string when shorter than 3 — which is
`List.take 3` either way), likewise for the title, and under
`combined:<first 6 chars of "artist title">` when both are non-empty; the
lookup consults the artist bucket only when the query's normalized artist is
non-empty, likewise for title and combined. -/
def candCond (digital : List DigTrack) (pA pT : List Char) (i : ℕ) : Bool :=
  let dA := normG (digital.getD i default).artist
  let dT := normG (digital.getD i default).title
  (!pA.isEmpty && !dA.isEmpty && dA.take 3 == pA.take 3) ||
  (!pT.isEmpty && !dT.isEmpty && dT.take 3 == pT.take 3) ||
  (!pA.isEmpty && !pT.isEmpty && !dA.isEmpty && !dT.isEmpty &&
    (dA ++ ' ' :: dT).take 6 == (pA ++ ' ' :: pT).take 6)

/-- The candidate set before the 200-cap: the union of the three prefix
buckets.  The Python `set` of small ints is modelled as the ascending list of
its elements (CPython iteration order for small-int sets; no claim below
depends on the order). -/
def candPreCap (digital : List DigTrack) (pA pT : List Char) : List ℕ :=
  (List.range digital.length).filter (fun i => candCond digital pA pT i)

/-- Candidate selection of `_find_track_in_digital_fast`: the indexed union;
if empty, a random sample of `min(100, n)` distinct positions (passed in as
`sample` — the one nondeterministic input); finally the 200-candidate cap. -/
def candidatesOf (digital : List DigTrack) (sample : List ℕ) (pA pT : List Char) :
    List ℕ :=
  let c := candPreCap digital pA pT
  let c2 := if c = [] then sample else c
  if 200 < c2.length then c2.take 200 else c2

/-- The cross-catalog composite of both gap analyzers:
`title*0.6 + artist*0.3 + combined*0.1` over the three `fuzz.ratio` calls
(the combined strings are `f"{artist} {title}"` of each side). -/
def crossScore (pA pT dA dT : List Char) : ℚ :=
  (fuzzRatio pT dT : ℚ) * ((6 : ℚ)/10) + (fuzzRatio pA dA : ℚ) * ((3 : ℚ)/10) +
    (fuzzRatio (pA ++ ' ' :: pT) (dA ++ ' ' :: dT) : ℚ) * ((1 : ℚ)/10)

/-- The `best_match` dict built inside the candidate loop. -/
structure BestInfo where
  digital_artist : RawText
  digital_title : RawText
  digital_album : RawText
  digital_genre : RawText
  digital_bpm : ℚ
  artist_score : ℕ
  title_score : ℕ
  combined_score : ℕ
deriving DecidableEq

/-- Pack one digital track into a `best_match` record. -/
def mkBest (d : DigTrack) (aS tS cS : ℕ) : BestInfo :=
  ⟨d.artist, d.title, d.album, d.genre, d.bpm, aS, tS, cS⟩

/-- The candidate loop of `_find_track_in_digital_fast`: track the maximum
weighted score and the candidate achieving it (strict improvement only —
`if weighted_score > best_confidence`), with early termination as soon as a
newly set best reaches 95. -/
def scanFast (digital : List DigTrack) (pA pT : List Char) :
    List ℕ → ℚ → Option BestInfo → ℚ × Option BestInfo
  | [], conf, bm => (conf, bm)
  | i :: rest, conf, bm =>
    let d := digital.getD i default
    let dA := normG d.artist
    let dT := normG d.title
    let aS := fuzzRatio pA dA
    let tS := fuzzRatio pT dT
    let cS := fuzzRatio (pA ++ ' ' :: pT) (dA ++ ' ' :: dT)
    let w := crossScore pA pT dA dT
    if conf < w then
      if 95 ≤ w then (w, some (mkBest d aS tS cS))
      else scanFast digital pA pT rest w (some (mkBest d aS tS cS))
    else scanFast digital pA pT rest conf bm

/-- The candidate loop of the plain `GapAnalyzer._find_track_in_digital`:
identical except that it scans the whole digital collection and never
terminates early. -/
def scanSlow (digital : List DigTrack) (pA pT : List Char) :
    List ℕ → ℚ × Option BestInfo → ℚ × Option BestInfo
  | [], st => st
  | i :: rest, st =>
    let d := digital.getD i default
    let dA := normG d.artist
    let dT := normG d.title
    let aS := fuzzRatio pA dA
    let tS := fuzzRatio pT dT
    let cS := fuzzRatio (pA ++ ' ' :: pT) (dA ++ ' ' :: dT)
    let w := crossScore pA pT dA dT
    if st.1 < w then scanSlow digital pA pT rest (w, some (mkBest d aS tS cS))
    else scanSlow digital pA pT rest st

/-- One Linkage Result row.  The two numeric-format reason strings are
modelled by their branch tags (the interpolated percentage is elided). -/
structure GapResult where
  physical_artist : RawText
  physical_title : RawText
  physical_album : RawText
  physical_label : RawText
  physical_format : RawText
  physical_year : RawText
  physical_catalog : RawText
  status : String
  confidence : ℚ
  status_reason : String
  digital_artist : RawText
  digital_title : RawText
  digital_album : RawText
  digital_genre : RawText
  digital_bpm : ℚ
  artist_score : ℕ
  title_score : ℕ
  combined_score : ℕ
deriving DecidableEq

/-- Classification and result assembly shared by both analyzers: `found`
when the best confidence reaches the threshold, `missing` otherwise (with
the sub-50 reason split); the best-match columns fall back to `''` / `0`
when no candidate ever improved on the initial confidence of 0. -/
def classify (p : PhysTrack) (thr : ℚ) (res : ℚ × Option BestInfo) : GapResult :=
  let conf := res.1
  let reason :=
    if thr ≤ conf then "matched"
    else if 50 < conf then "possible_below_threshold"
    else "no_good_matches"
  { physical_artist := p.artist
    physical_title := p.title
    physical_album := p.album
    physical_label := p.label
    physical_format := p.format_type
    physical_year := p.release_year
    physical_catalog := p.catalog_number
    status := if thr ≤ conf then "found" else "missing"
    confidence := conf
    status_reason := reason
    digital_artist := match res.2 with | some b => b.digital_artist | none => RawText.str ""
    digital_title := match res.2 with | some b => b.digital_title | none => RawText.str ""
    digital_album := match res.2 with | some b => b.digital_album | none => RawText.str ""
    digital_genre := match res.2 with | some b => b.digital_genre | none => RawText.str ""
    digital_bpm := match res.2 with | some b => b.digital_bpm | none => 0
    artist_score := match res.2 with | some b => b.artist_score | none => 0
    title_score := match res.2 with | some b => b.title_score | none => 0
    combined_score := match res.2 with | some b => b.combined_score | none => 0 }

/-- `FastGapAnalyzer._find_track_in_digital_fast` for one physical record,
with the fallback random sample passed in explicitly. -/
def find_track_fast (digital : List DigTrack) (sample : List ℕ) (p : PhysTrack)
    (thr : ℚ) : GapResult :=
  let pA := normG p.artist
  let pT := normG p.title
  classify p thr (scanFast digital pA pT (candidatesOf digital sample pA pT) 0 none)

/-- `GapAnalyzer._find_track_in_digital` for one physical record (full scan
of the digital collection, in row order). -/
def find_track_slow (digital : List DigTrack) (p : PhysTrack) (thr : ℚ) :
    GapResult :=
  let pA := normG p.artist
  let pT := normG p.title
  classify p thr (scanSlow digital pA pT (List.range digital.length) (0, none))

/-- `FastGapAnalyzer.find_gaps`: empty-catalog guards, then one result per
physical row in row order (the batching only chunks the logging).  `sampler`
supplies the fallback random sample drawn for each source position. -/
def find_gaps_fast (physical : List PhysTrack) (digital : List DigTrack)
    (sampler : ℕ → List ℕ) (thr : ℚ) : List GapResult :=
  if physical = [] then []
  else if digital = [] then []
  else (List.range physical.length).map (fun i =>
    find_track_fast digital (sampler i) (physical.getD i default) thr)

/-- `GapAnalyzer.find_gaps`: empty-catalog guards, then one result per
physical row in row order. -/
def find_gaps (physical : List PhysTrack) (digital : List DigTrack) (thr : ℚ) :
    List GapResult :=
  if physical = [] then []
  else if digital = [] then []
  else (List.range physical.length).map (fun i =>
    find_track_slow digital (physical.getD i default) thr)

/-! ## Concrete fixtures used by witnesses and counterexamples -/

/-- A digital-collection row with the given artist and title and all other
cells defaulted. -/
def exTrack (a t : String) : Track :=
  ⟨RawText.str a, RawText.str t, RawText.str "", RawText.str "", 0, 0, 0,
   RawText.str "", 0, RawText.str "", RawText.str "", 0⟩

/-- A physical-collection row with the given artist and title. -/
def exPhys (a t : String) : PhysTrack :=
  ⟨RawText.str a, RawText.str t, RawText.str "", RawText.str "", RawText.str "",
   RawText.str "", RawText.str ""⟩

/-- A digital-collection row (gap-analyzer shape) with the given artist and
title. -/
def exDig (a t : String) : DigTrack :=
  ⟨RawText.str a, RawText.str t, RawText.str "", RawText.str "", 0⟩

/-- The shape of one emitted Duplicate Group, as `find_duplicates` produces
it: the rows carrying group id `g` are either absent or form one block —
the seed row (`original`, rank 1, similarity 100) followed by the qualifying
candidates in descending-similarity order, each a `duplicate` with
similarity at least the threshold and rank `2 + (number of the group's
candidates scoring at least its own similarity)`. -/
def GroupShape (thr : ℚ) (rows : List DupRow) (g : ℕ) : Prop :=
  rows.filter (fun r => r.group_id == g) = [] ∨
  ∃ s0 ds, rows.filter (fun r => r.group_id == g) = s0 :: ds ∧
    s0.rank = 1 ∧ s0.status = "original" ∧ s0.similarity = 100 ∧
    ds.Pairwise (fun a b => b.similarity ≤ a.similarity) ∧
    ∀ d ∈ ds, d.status = "duplicate" ∧ thr ≤ d.similarity ∧
      d.rank = ds.countP (fun e2 => d.similarity ≤ e2.similarity) + 2

/-- Invariant of the `find_duplicates` fold state `(rows, processed)`. -/
structure DupInv (thr : ℚ) (st : List DupRow × List ℕ) : Prop where
  mem_proc : ∀ r ∈ st.1, r.track_index ∈ st.2
  nodup : (st.1.map (fun r => r.track_index)).Nodup
  gid_le : ∀ i r, st.1.get? i = some r → r.group_id ≤ i + 1
  mono : ∀ i j r s, i ≤ j → st.1.get? i = some r → st.1.get? j = some s →
    r.group_id ≤ s.group_id
  seed_at : ∀ i r, st.1.get? i = some r → r.rank = 1 → r.group_id = i + 1
  shape : ∀ g, GroupShape thr st.1 g

/-- Membership completeness of an emitted group: whenever the rows carrying
group id `g` form a block `s0 :: ds`, every catalog position after the
seed's that is not carried by any row of an earlier group and whose
similarity to the seed track reaches the threshold appears among the
block's duplicates, with exactly that similarity — no qualifying candidate
is omitted. -/
def GroupComplete (catalog : List Track) (thr : ℚ) (method : String)
    (rows : List DupRow) (g : ℕ) : Prop :=
  ∀ s0 ds, rows.filter (fun r => r.group_id == g) = s0 :: ds →
    ∀ i, i < catalog.length → s0.track_index < i →
      (∀ r ∈ rows, r.group_id < g → r.track_index ≠ i) →
      thr ≤ calcSimTracks (catalog.getD s0.track_index default)
        (catalog.getD i default) method →
      ∃ d ∈ ds, d.track_index = i ∧
        d.similarity = calcSimTracks (catalog.getD s0.track_index default)
          (catalog.getD i default) method

/-- `DupInv` extended with the facts needed for group completeness: every
processed position is carried by some emitted row, and every emitted group
contains every one of its qualifying candidates. -/
structure DupInvC (catalog : List Track) (thr : ℚ) (method : String)
    (st : List DupRow × List ℕ) : Prop where
  base : DupInv thr st
  proc_mem : ∀ p ∈ st.2, ∃ r ∈ st.1, r.track_index = p
  complete : ∀ g, GroupComplete catalog thr method st.1 g

/-! ## Scorer lemmas: `fuzz.ratio` is symmetric -/

theorem lcs_nil_right : ∀ xs : List Char, lcs xs [] = 0 := by
  intro xs
  cases xs <;> rfl

theorem lcs_cons_cons (x y : Char) (xs ys : List Char) :
    lcs (x :: xs) (y :: ys) =
      if x = y then lcs xs ys + 1 else max (lcs xs (y :: ys)) (lcs (x :: xs) ys) :=
  rfl

theorem lcs_comm : ∀ a b : List Char, lcs a b = lcs b a := by
  intro a
  induction a with
  | nil =>
    intro b
    rw [lcs_nil_right]
    rfl
  | cons x xs ihx =>
    intro b
    induction b with
    | nil => rw [lcs_nil_right]; rfl
    | cons y ys ihy =>
      rw [lcs_cons_cons, lcs_cons_cons]
      by_cases h : x = y
      · subst h
        rw [if_pos rfl, if_pos rfl, ihx ys]
      · have h' : ¬y = x := fun e => h e.symm
        rw [if_neg h, if_neg h', ihx (y :: ys), ihy, Nat.max_comm]

theorem fuzzRatio_comm (a b : List Char) : fuzzRatio a b = fuzzRatio b a := by
  unfold fuzzRatio
  rw [lcs_comm, Nat.add_comm]

theorem fuzzRatioS_comm (a b : String) : fuzzRatioS a b = fuzzRatioS b a :=
  fuzzRatio_comm a.data b.data

theorem calcSimTracks_comm (a b : Track) (method : String) :
    calcSimTracks a b method = calcSimTracks b a method := by
  unfold calcSimTracks calculate_similarity
  by_cases h1 : method = "artist_title"
  · simp only [h1, String.reduceEq, reduceIte]
    rw [fuzzRatioS_comm (normalizeRaw true a.title) (normalizeRaw true b.title),
      fuzzRatioS_comm (normalizeRaw true a.artist) (normalizeRaw true b.artist),
      fuzzRatio_comm ((normalizeRaw true a.artist).data ++ ' ' :: (normalizeRaw true a.title).data)]
  · by_cases h2 : method = "title_only"
    · simp only [h1, h2, String.reduceEq, reduceIte]
      rw [fuzzRatioS_comm]
    · by_cases h3 : method = "filename"
      · simp only [h1, h2, h3, String.reduceEq, reduceIte]
        rw [fuzzRatioS_comm]
      · by_cases h4 : method = "duration"
        · simp only [h1, h2, h3, h4, String.reduceEq, reduceIte]
          rw [fuzzRatioS_comm (normalizeRaw true a.title) (normalizeRaw true b.title),
            abs_sub_comm a.totaltime b.totaltime]
          congr 1
          congr 1
          exact if_congr and_comm rfl rfl
        · simp only [h1, h2, h3, h4, ite_false, if_neg]

theorem crossScore_comm (pA pT dA dT : List Char) :
    crossScore pA pT dA dT = crossScore dA dT pA pT := by
  unfold crossScore
  rw [fuzzRatio_comm pT dT, fuzzRatio_comm pA dA, fuzzRatio_comm (pA ++ ' ' :: pT)]

/-- C3: for every input that is null, empty, or the NaN placeholder pandas
uses for missing values, both text-normalizer variants return the empty
string; the functions are total, so no error is ever raised. -/
theorem claim3_normalizer_empty : ∀ stripQual : Bool,
    normalizeRaw stripQual RawText.null = "" ∧
    normalizeRaw stripQual RawText.nanV = "" ∧
    normalizeRaw stripQual (RawText.str "") = "" := by
  intro stripQual
  refine ⟨rfl, rfl, ?_⟩
  simp [normalizeRaw]

/-- C7: every duplicate-finder comparison method (`artist_title`,
`title_only`, `filename`, `duration`, and any unknown method, which scores 0)
is symmetric in the two tracks, and the cross-catalog composite of the gap
analyzers is symmetric in the two (artist, title) sides: the scores depend
only on the normalized field contents, not on which side is the reference. -/
theorem claim7_similarity_symmetric :
    (∀ (a b : Track) (method : String),
      calcSimTracks a b method = calcSimTracks b a method) ∧
    (∀ pA pT dA dT : List Char, crossScore pA pT dA dT = crossScore dA dT pA pT) :=
  ⟨calcSimTracks_comm, crossScore_comm⟩

/-! ## Nearest-match resolver lemmas -/

theorem classify_status (p : PhysTrack) (thr : ℚ) (res : ℚ × Option BestInfo) :
    (classify p thr res).status = if thr ≤ res.1 then "found" else "missing" := rfl

theorem classify_status_found_iff (p : PhysTrack) (thr : ℚ) (res : ℚ × Option BestInfo) :
    ((classify p thr res).status == "found") = true ↔ thr ≤ res.1 := by
  rw [classify_status]
  by_cases h : thr ≤ res.1 <;> simp [h]

/-- C2: with both catalogs non-empty ("non-null": the empty-catalog guards
of `find_gaps` return an empty frame and are specified separately), both
resolvers emit exactly one Linkage Result per source record, in source
order. -/
theorem claim2_one_result_per_source (physical : List PhysTrack)
    (digital : List DigTrack) (sampler : ℕ → List ℕ) (thr : ℚ)
    (h1 : physical ≠ []) (h2 : digital ≠ []) :
    (find_gaps_fast physical digital sampler thr).length = physical.length ∧
    (∀ i, (find_gaps_fast physical digital sampler thr).get? i =
      (physical.get? i).map (fun p => find_track_fast digital (sampler i) p thr)) ∧
    (find_gaps physical digital thr).length = physical.length ∧
    (∀ i, (find_gaps physical digital thr).get? i =
      (physical.get? i).map (fun p => find_track_slow digital p thr)) := by
  unfold find_gaps_fast find_gaps
  rw [if_neg h1, if_neg h2, if_neg h1, if_neg h2]
  refine ⟨by simp, fun i => ?_, by simp, fun i => ?_⟩ <;>
  · rw [List.get?_map]
    by_cases hi : i < physical.length
    · rw [List.get?_range hi, List.get?_eq_get hi, Option.map_some', Option.map_some',
        List.getD_eq_get]
    · rw [List.get?_eq_none.mpr (by simpa using hi),
        List.get?_eq_none.mpr (by omega), Option.map_none', Option.map_none']

/-- C8: for fixed catalogs and a fixed sampler, the per-record best
confidence does not depend on the threshold, so raising the threshold never
increases the number of `found` results — for either resolver. -/
theorem claim8_threshold_monotone (physical : List PhysTrack)
    (digital : List DigTrack) (sampler : ℕ → List ℕ) (t1 t2 : ℚ) (h : t1 ≤ t2) :
    (find_gaps_fast physical digital sampler t2).countP (fun r => r.status == "found") ≤
      (find_gaps_fast physical digital sampler t1).countP (fun r => r.status == "found") ∧
    (find_gaps physical digital t2).countP (fun r => r.status == "found") ≤
      (find_gaps physical digital t1).countP (fun r => r.status == "found") := by
  constructor
  · by_cases h1 : physical = []
    · simp [find_gaps_fast, h1]
    · by_cases h2 : digital = []
      · simp [find_gaps_fast, h1, h2]
      · unfold find_gaps_fast
        rw [if_neg h1, if_neg h2, if_neg h1, if_neg h2, List.countP_map, List.countP_map]
        refine List.countP_mono_left fun i _ hfound => ?_
        have := (classify_status_found_iff (physical.getD i default) t2 _).mp hfound
        exact (classify_status_found_iff (physical.getD i default) t1 _).mpr
          (le_trans h this)
  · by_cases h1 : physical = []
    · simp [find_gaps, h1]
    · by_cases h2 : digital = []
      · simp [find_gaps, h1, h2]
      · unfold find_gaps
        rw [if_neg h1, if_neg h2, if_neg h1, if_neg h2, List.countP_map, List.countP_map]
        refine List.countP_mono_left fun i _ hfound => ?_
        have := (classify_status_found_iff (physical.getD i default) t2 _).mp hfound
        exact (classify_status_found_iff (physical.getD i default) t1 _).mpr
          (le_trans h this)

/-! ## Candidate index lemmas -/

/-- C4: a target record whose normalized-artist 3-prefix (or normalized-title
3-prefix) coincides with the query's corresponding prefix is always in the
pre-cap candidate union — the prefix scheme has no false negatives.  (A
query whose normalized field is empty consults no bucket for that field and
has no prefix; prefix equality with a non-empty query field forces the
record's field to be non-empty, which is stated explicitly.) -/
theorem isEmpty_false_of_ne {l : List Char} (h : l ≠ []) : l.isEmpty = false := by
  cases l with
  | nil => exact absurd rfl h
  | cons c cs => rfl

theorem claim4_index_complete (digital : List DigTrack) (q : PhysTrack)
    (i : ℕ) (t : DigTrack) (hlt : i < digital.length)
    (hgetD : digital.getD i default = t)
    (hmatch :
      (normG q.artist ≠ [] ∧ normG t.artist ≠ [] ∧
        (normG t.artist).take 3 = (normG q.artist).take 3) ∨
      (normG q.title ≠ [] ∧ normG t.title ≠ [] ∧
        (normG t.title).take 3 = (normG q.title).take 3)) :
    i ∈ candPreCap digital (normG q.artist) (normG q.title) := by
  unfold candPreCap
  rw [List.mem_filter]
  refine ⟨List.mem_range.mpr hlt, ?_⟩
  simp only [candCond]
  rw [hgetD]
  rcases hmatch with ⟨hqa, hta, hpre⟩ | ⟨hqt, htt, hpre⟩
  · rw [isEmpty_false_of_ne hqa, isEmpty_false_of_ne hta, hpre]
    simp
  · rw [isEmpty_false_of_ne hqt, isEmpty_false_of_ne htt, hpre]
    simp

/-! ## Scan-loop lemmas for C10 -/

theorem crossScore_nonneg (pA pT dA dT : List Char) : 0 ≤ crossScore pA pT dA dT := by
  unfold crossScore
  positivity

theorem crossScore_zero_of_scores (pA pT dA dT : List Char)
    (ha : fuzzRatio pA dA = 0) (ht : fuzzRatio pT dT = 0)
    (hc : fuzzRatio (pA ++ ' ' :: pT) (dA ++ ' ' :: dT) = 0) :
    crossScore pA pT dA dT = 0 := by
  unfold crossScore
  rw [ha, ht, hc]
  norm_num

/-- Once a best match is recorded it is never dropped. -/
theorem scanFast_some (digital : List DigTrack) (pA pT : List Char) :
    ∀ (l : List ℕ) (conf : ℚ) (b0 : BestInfo),
      (scanFast digital pA pT l conf (some b0)).2.isSome = true := by
  intro l
  induction l with
  | nil => intro conf b0; rfl
  | cons i rest ih =>
    intro conf b0
    simp only [scanFast]
    split
    · split
      · rfl
      · exact ih _ _
    · exact ih _ _

/-- If every candidate scores a zero composite, the scan ends with no best
match and confidence 0. -/
theorem scanFast_all_zero (digital : List DigTrack) (pA pT : List Char) :
    ∀ l : List ℕ,
      (∀ i ∈ l, crossScore pA pT (normG (digital.getD i default).artist)
        (normG (digital.getD i default).title) = 0) →
      scanFast digital pA pT l 0 none = (0, none) := by
  intro l
  induction l with
  | nil => intro _; rfl
  | cons i rest ih =>
    intro hz
    have hi := hz i (List.mem_cons_self i rest)
    simp only [scanFast, hi]
    rw [if_neg (by norm_num)]
    exact ih fun j hj => hz j (List.mem_cons_of_mem i hj)

/-- If some candidate scores a nonzero composite, the scan starting from
`(0, none)` records a best match. -/
theorem scanFast_some_of_nonzero (digital : List DigTrack) (pA pT : List Char) :
    ∀ l : List ℕ,
      (∃ i ∈ l, crossScore pA pT (normG (digital.getD i default).artist)
        (normG (digital.getD i default).title) ≠ 0) →
      (scanFast digital pA pT l 0 none).2.isSome = true := by
  intro l
  induction l with
  | nil => rintro ⟨i, hi, _⟩; cases hi
  | cons i rest ih =>
    rintro ⟨j, hj, hnz⟩
    rcases List.mem_cons.mp hj with rfl | hjr
    · have hpos : 0 < crossScore pA pT (normG (digital.getD j default).artist)
          (normG (digital.getD j default).title) :=
        lt_of_le_of_ne (crossScore_nonneg _ _ _ _) (Ne.symm hnz)
      simp only [scanFast]
      rw [if_pos hpos]
      split
      · rfl
      · exact scanFast_some digital pA pT _ _ _
    · by_cases hzi : crossScore pA pT (normG (digital.getD i default).artist)
          (normG (digital.getD i default).title) = 0
      · simp only [scanFast, hzi]
        rw [if_neg (by norm_num)]
        exact ih ⟨j, hjr, hnz⟩
      · have hpos : 0 < crossScore pA pT (normG (digital.getD i default).artist)
            (normG (digital.getD i default).title) :=
          lt_of_le_of_ne (crossScore_nonneg _ _ _ _) (Ne.symm hzi)
        simp only [scanFast]
        rw [if_pos hpos]
        split
        · rfl
        · exact scanFast_some digital pA pT _ _ _

/-- Any recorded best match has a nonzero sub-score triple: a candidate is
recorded only when its composite strictly exceeds the running confidence,
which never drops below 0, and the composite of an all-zero triple is 0. -/
theorem scanFast_best_nonzero (digital : List DigTrack) (pA pT : List Char) :
    ∀ (l : List ℕ) (conf : ℚ) (bm : Option BestInfo),
      0 ≤ conf →
      (∀ b, bm = some b →
        ¬(b.artist_score = 0 ∧ b.title_score = 0 ∧ b.combined_score = 0)) →
      ∀ b, (scanFast digital pA pT l conf bm).2 = some b →
        ¬(b.artist_score = 0 ∧ b.title_score = 0 ∧ b.combined_score = 0) := by
  intro l
  induction l with
  | nil => intro conf bm _ hbm b hb; exact hbm b hb
  | cons i rest ih =>
    intro conf bm hconf hbm b hb
    simp only [scanFast] at hb
    by_cases hlt : conf < crossScore pA pT (normG (digital.getD i default).artist)
        (normG (digital.getD i default).title)
    · rw [if_pos hlt] at hb
      have hmk : ¬((mkBest (digital.getD i default)
          (fuzzRatio pA (normG (digital.getD i default).artist))
          (fuzzRatio pT (normG (digital.getD i default).title))
          (fuzzRatio (pA ++ ' ' :: pT)
            ((normG (digital.getD i default).artist) ++ ' ' ::
              (normG (digital.getD i default).title)))).artist_score = 0 ∧
          (mkBest (digital.getD i default)
          (fuzzRatio pA (normG (digital.getD i default).artist))
          (fuzzRatio pT (normG (digital.getD i default).title))
          (fuzzRatio (pA ++ ' ' :: pT)
            ((normG (digital.getD i default).artist) ++ ' ' ::
              (normG (digital.getD i default).title)))).title_score = 0 ∧
          (mkBest (digital.getD i default)
          (fuzzRatio pA (normG (digital.getD i default).artist))
          (fuzzRatio pT (normG (digital.getD i default).title))
          (fuzzRatio (pA ++ ' ' :: pT)
            ((normG (digital.getD i default).artist) ++ ' ' ::
              (normG (digital.getD i default).title)))).combined_score = 0) := by
        rintro ⟨hz1, hz2, hz3⟩
        have hzero : crossScore pA pT (normG (digital.getD i default).artist)
            (normG (digital.getD i default).title) = 0 :=
          crossScore_zero_of_scores _ _ _ _ hz1 hz2 hz3
        rw [hzero] at hlt
        exact absurd (lt_of_le_of_lt hconf hlt) (lt_irrefl 0)
      split at hb
      · injection hb with hb2
        exact hb2 ▸ hmk
      · exact ih _ _ (le_of_lt (lt_of_le_of_lt hconf hlt))
          (fun b' hb' => (Option.some.inj hb') ▸ hmk) b hb
    · rw [if_neg hlt] at hb
      exact ih _ _ hconf hbm b hb

theorem classify_blank_iff (p : PhysTrack) (thr : ℚ) (res : ℚ × Option BestInfo)
    (hbest : ∀ b, res.2 = some b →
      ¬(b.artist_score = 0 ∧ b.title_score = 0 ∧ b.combined_score = 0)) :
    ((classify p thr res).digital_artist = RawText.str "" ∧
     (classify p thr res).digital_title = RawText.str "" ∧
     (classify p thr res).digital_album = RawText.str "" ∧
     (classify p thr res).digital_genre = RawText.str "" ∧
     (classify p thr res).digital_bpm = 0 ∧
     (classify p thr res).artist_score = 0 ∧
     (classify p thr res).title_score = 0 ∧
     (classify p thr res).combined_score = 0) ↔ res.2 = none := by
  rcases res with ⟨conf, bm⟩
  cases bm with
  | none => simp [classify]
  | some b =>
    simp only [classify]
    constructor
    · rintro ⟨-, -, -, -, -, h6, h7, h8⟩
      exact absurd ⟨h6, h7, h8⟩ (hbest b rfl)
    · intro h
      exact absurd h (by simp)

/-- C10: with a non-empty target catalog and the documented sample size
`min(100, n)`, the resolver always compares at least one candidate, and the
emitted result carries blank best-match fields and zero sub-scores exactly
when every compared candidate's weighted composite is 0 — blanks do not mean
that no candidate was compared. -/
theorem claim10_blank_iff_all_zero (digital : List DigTrack) (sample : List ℕ)
    (p : PhysTrack) (thr : ℚ) (hne : digital ≠ [])
    (hlen : sample.length = min 100 digital.length)
    (hval : ∀ i ∈ sample, i < digital.length) :
    candidatesOf digital sample (normG p.artist) (normG p.title) ≠ [] ∧
    (((find_track_fast digital sample p thr).digital_artist = RawText.str "" ∧
      (find_track_fast digital sample p thr).digital_title = RawText.str "" ∧
      (find_track_fast digital sample p thr).digital_album = RawText.str "" ∧
      (find_track_fast digital sample p thr).digital_genre = RawText.str "" ∧
      (find_track_fast digital sample p thr).digital_bpm = 0 ∧
      (find_track_fast digital sample p thr).artist_score = 0 ∧
      (find_track_fast digital sample p thr).title_score = 0 ∧
      (find_track_fast digital sample p thr).combined_score = 0) ↔
     ∀ i ∈ candidatesOf digital sample (normG p.artist) (normG p.title),
       crossScore (normG p.artist) (normG p.title)
         (normG (digital.getD i default).artist)
         (normG (digital.getD i default).title) = 0) := by
  have hn : 0 < digital.length := List.length_pos.mpr hne
  have hc2 : (if candPreCap digital (normG p.artist) (normG p.title) = []
      then sample else candPreCap digital (normG p.artist) (normG p.title)) ≠ [] := by
    split
    · intro hs
      rw [hs] at hlen
      have hmin : 0 < min 100 digital.length := lt_min (by norm_num) hn
      simp at hlen
      omega
    · assumption
  have hcap : ∀ l : List ℕ, l ≠ [] → (if 200 < l.length then List.take 200 l else l) ≠ [] := by
    intro l hl
    split
    · intro htake
      have hlt0 : (0 : ℕ) < l.length := List.length_pos.mpr hl
      have hlen0 := congrArg List.length htake
      rw [List.length_take, List.length_nil] at hlen0
      rcases Nat.min_eq_zero_iff.mp hlen0 with h | h <;> omega
    · exact hl
  have hcands : candidatesOf digital sample (normG p.artist) (normG p.title) ≠ [] :=
    hcap _ hc2
  refine ⟨hcands, ?_⟩
  have e : find_track_fast digital sample p thr =
      classify p thr (scanFast digital (normG p.artist) (normG p.title)
        (candidatesOf digital sample (normG p.artist) (normG p.title)) 0 none) := rfl
  have hbest := scanFast_best_nonzero digital (normG p.artist) (normG p.title)
    (candidatesOf digital sample (normG p.artist) (normG p.title)) 0 none
    le_rfl (fun b hb => absurd hb (by simp))
  rw [e, classify_blank_iff p thr _ (fun b hb => hbest b hb)]
  constructor
  · intro hnone i hi
    by_contra hnz
    have hs := scanFast_some_of_nonzero digital (normG p.artist) (normG p.title)
      (candidatesOf digital sample (normG p.artist) (normG p.title)) ⟨i, hi, hnz⟩
    rw [hnone] at hs
    simp at hs
  · intro hall
    rw [scanFast_all_zero digital (normG p.artist) (normG p.title)
      (candidatesOf digital sample (normG p.artist) (normG p.title)) hall]

/-! ## Duplicate-finder lemmas: the sorted candidate list -/

theorem insertDesc_perm (x : SimEntry) :
    ∀ l : List SimEntry, (insertDesc x l).Perm (x :: l) := by
  intro l
  induction l with
  | nil => exact List.Perm.refl _
  | cons y ys ih =>
    unfold insertDesc
    split
    · exact ((ih).cons y).trans (List.Perm.swap x y ys)
    · exact List.Perm.refl _

theorem sortDesc_perm (l : List SimEntry) : (sortDesc l).Perm l := by
  induction l with
  | nil => exact List.Perm.refl _
  | cons x xs ih =>
    have h1 : sortDesc (x :: xs) = insertDesc x (sortDesc xs) := rfl
    rw [h1]
    exact (insertDesc_perm x (sortDesc xs)).trans (ih.cons x)

theorem insertDesc_sorted (x : SimEntry) (l : List SimEntry)
    (h : l.Pairwise (fun a b => b.score ≤ a.score)) :
    (insertDesc x l).Pairwise (fun a b => b.score ≤ a.score) := by
  induction l with
  | nil => exact List.pairwise_singleton _ x
  | cons y ys ih =>
    rcases List.pairwise_cons.mp h with ⟨hy, hys⟩
    unfold insertDesc
    split
    · rename_i hxy
      refine List.pairwise_cons.mpr ⟨?_, ih hys⟩
      intro z hz
      rcases List.mem_cons.mp ((insertDesc_perm x ys).mem_iff.mp hz) with rfl | hzys
      · exact le_of_lt hxy
      · exact hy z hzys
    · rename_i hxy
      refine List.pairwise_cons.mpr ⟨?_, h⟩
      intro z hz
      rcases List.mem_cons.mp hz with rfl | hzys
      · exact le_of_not_lt hxy
      · exact le_trans (hy z hzys) (le_of_not_lt hxy)

theorem sortDesc_sorted (l : List SimEntry) :
    (sortDesc l).Pairwise (fun a b => b.score ≤ a.score) := by
  induction l with
  | nil => exact List.Pairwise.nil
  | cons x xs ih => exact insertDesc_sorted x (sortDesc xs) ih

theorem simCand_some {catalog : List Track} {refT : Track} {refIdx : ℕ} {thr : ℚ}
    {method : String} {processed : List ℕ} {i : ℕ} {e : SimEntry}
    (h : simCand catalog refT refIdx thr method processed i = some e) :
    e.idx = i ∧ e.track = catalog.getD i default ∧
    e.score = calcSimTracks refT (catalog.getD i default) method ∧
    refIdx < i ∧ i ∉ processed ∧ thr ≤ e.score := by
  unfold simCand at h
  split at h
  · cases h
  · rename_i hc
    push_neg at hc
    split at h
    · rename_i ht
      cases h
      exact ⟨rfl, rfl, rfl, hc.1, hc.2, ht⟩
    · cases h

theorem find_similar_tracks_mem {catalog : List Track} {refT : Track} {refIdx : ℕ}
    {thr : ℚ} {method : String} {processed : List ℕ} {e : SimEntry}
    (h : e ∈ find_similar_tracks catalog refT refIdx thr method processed) :
    thr ≤ e.score ∧ refIdx < e.idx ∧ e.idx ∉ processed := by
  unfold find_similar_tracks at h
  have h2 := (sortDesc_perm _).mem_iff.mp h
  rcases List.mem_filterMap.mp h2 with ⟨i, _, hf⟩
  rcases simCand_some hf with ⟨hidx, -, -, hlt, hproc, ht⟩
  exact ⟨ht, hidx ▸ hlt, hidx ▸ hproc⟩

theorem find_similar_tracks_sorted (catalog : List Track) (refT : Track)
    (refIdx : ℕ) (thr : ℚ) (method : String) (processed : List ℕ) :
    (find_similar_tracks catalog refT refIdx thr method processed).Pairwise
      (fun a b => b.score ≤ a.score) :=
  sortDesc_sorted _

theorem find_similar_tracks_idx_nodup (catalog : List Track) (refT : Track)
    (refIdx : ℕ) (thr : ℚ) (method : String) (processed : List ℕ) :
    ((find_similar_tracks catalog refT refIdx thr method processed).map
      (fun e => e.idx)).Nodup := by
  unfold find_similar_tracks
  have hperm := (sortDesc_perm ((List.range catalog.length).filterMap
    (simCand catalog refT refIdx thr method processed))).map (fun e => e.idx)
  rw [hperm.nodup_iff]
  have hpw : ((List.range catalog.length).filterMap
      (simCand catalog refT refIdx thr method processed)).Pairwise
      (fun a b => a.idx < b.idx) := by
    rw [List.pairwise_filterMap]
    refine (List.pairwise_lt_range catalog.length).imp ?_
    intro a b hab x hx y hy
    have hxa := (simCand_some hx).1
    have hyb := (simCand_some hy).1
    rw [hxa, hyb]
    exact hab
  exact List.Pairwise.map (fun e : SimEntry => e.idx) (fun a b hab => Nat.ne_of_lt hab) hpw

/-! ## The duplicate-run invariant -/

theorem dupBlock_gid {sims : List SimEntry} {track : Track} {idx gid : ℕ} :
    ∀ r ∈ dupBlock sims track idx gid, r.group_id = gid := by
  intro r hr
  rcases List.mem_cons.mp hr with rfl | hr2
  · rfl
  · rcases List.mem_map.mp hr2 with ⟨e, -, rfl⟩
    rfl

theorem dupBlock_tidx (sims : List SimEntry) (track : Track) (idx gid : ℕ) :
    (dupBlock sims track idx gid).map (fun r => r.track_index) =
      idx :: sims.map (fun e => e.idx) := by
  simp only [dupBlock, List.map_cons, List.map_map]
  rfl

theorem dupBlock_get? {sims : List SimEntry} {track : Track} {idx gid k : ℕ}
    {r : DupRow} (h : (dupBlock sims track idx gid).get? k = some r) :
    (k = 0 ∧ r = ⟨gid, 1, "original", 100, track, idx⟩) ∨
    (∃ e k2, k = k2 + 1 ∧ sims.get? k2 = some e ∧
      r = ⟨gid, (sims.countP (fun x => e.score ≤ x.score)) + 2,
        "duplicate", e.score, e.track, e.idx⟩) := by
  cases k with
  | zero =>
    left
    refine ⟨rfl, ?_⟩
    have h2 : some (⟨gid, 1, "original", 100, track, idx⟩ : DupRow) = some r := h
    exact (Option.some.inj h2).symm
  | succ k2 =>
    right
    have h2 : (sims.map (fun e =>
        (⟨gid, (sims.countP (fun x => e.score ≤ x.score)) + 2,
          "duplicate", e.score, e.track, e.idx⟩ : DupRow))).get? k2 = some r := h
    rw [List.get?_map] at h2
    rcases he : sims.get? k2 with _ | e
    · rw [he] at h2
      cases h2
    · rw [he] at h2
      exact ⟨e, k2, rfl, he, (Option.some.inj h2).symm⟩

theorem get?_append_cases {l1 l2 : List DupRow} {i : ℕ} {r : DupRow}
    (h : (l1 ++ l2).get? i = some r) :
    (i < l1.length ∧ l1.get? i = some r) ∨
    (l1.length ≤ i ∧ l2.get? (i - l1.length) = some r) := by
  by_cases hi : i < l1.length
  · left
    exact ⟨hi, by rw [← List.get?_append hi]; exact h⟩
  · right
    have hle : l1.length ≤ i := le_of_not_lt hi
    exact ⟨hle, by rw [← List.get?_append_right hle]; exact h⟩

theorem rows_gid_le_len {thr : ℚ} {st : List DupRow × List ℕ} (h : DupInv thr st) :
    ∀ r ∈ st.1, r.group_id ≤ st.1.length := by
  intro r hr
  rcases List.mem_iff_get?.mp hr with ⟨i, hi⟩
  have h1 := h.gid_le i r hi
  rcases List.get?_eq_some.mp hi with ⟨hlt, -⟩
  omega

theorem dupBlock_mem {sims : List SimEntry} {track : Track} {idx gid : ℕ}
    {r : DupRow} (hr : r ∈ dupBlock sims track idx gid) :
    r = ⟨gid, 1, "original", 100, track, idx⟩ ∨
    ∃ e ∈ sims, r = ⟨gid, (sims.countP (fun x => e.score ≤ x.score)) + 2,
      "duplicate", e.score, e.track, e.idx⟩ := by
  rcases List.mem_cons.mp hr with rfl | hr2
  · left
    rfl
  · right
    rcases List.mem_map.mp hr2 with ⟨e, he, rfl⟩
    exact ⟨e, he, rfl⟩

theorem dupStep_preserves (catalog : List Track) (thr : ℚ) (method : String)
    (st : List DupRow × List ℕ) (idx : ℕ) (h : DupInv thr st) :
    DupInv thr (dupStep catalog thr method st idx) := by
  unfold dupStep
  split
  · exact h
  · rename_i hidx
    split
    · exact h
    · rename_i hsims
      constructor
      -- mem_proc
      · intro r hr
        rcases List.mem_append.mp hr with hr1 | hr2
        · exact List.mem_append.mpr (Or.inl (List.mem_append.mpr (Or.inl (h.mem_proc r hr1))))
        · rcases dupBlock_mem hr2 with rfl | ⟨e, he, rfl⟩
          · exact List.mem_append.mpr (Or.inr (List.mem_singleton.mpr rfl))
          · exact List.mem_append.mpr (Or.inl (List.mem_append.mpr
              (Or.inr (List.mem_map.mpr ⟨e, he, rfl⟩))))
      -- nodup
      · rw [List.map_append, dupBlock_tidx]
        rw [List.nodup_append]
        refine ⟨h.nodup, ?_, ?_⟩
        · refine List.nodup_cons.mpr ⟨?_, find_similar_tracks_idx_nodup _ _ _ _ _ _⟩
          intro hmem
          rcases List.mem_map.mp hmem with ⟨e, he, heq⟩
          have := (find_similar_tracks_mem he).2.1
          omega
        · intro a ha hb
          rcases List.mem_map.mp ha with ⟨r, hr, rfl⟩
          have hproc := h.mem_proc r hr
          rcases List.mem_cons.mp hb with heq | hmem
          · rw [heq] at hproc
            exact hidx hproc
          · rcases List.mem_map.mp hmem with ⟨e, he, heq⟩
            have := (find_similar_tracks_mem he).2.2
            rw [heq] at this
            exact this hproc
      -- gid_le
      · intro i r hget
        rcases get?_append_cases hget with ⟨hi, hg⟩ | ⟨hi, hg⟩
        · exact h.gid_le i r hg
        · rcases dupBlock_get? hg with ⟨hk0, rfl⟩ | ⟨e, k2, hk, hek, rfl⟩
          · show st.1.length + 1 ≤ i + 1
            omega
          · show st.1.length + 1 ≤ i + 1
            omega
      -- mono
      · intro i j r s hij hgi hgj
        rcases get?_append_cases hgi with ⟨hi, hg1⟩ | ⟨hi, hg1⟩
        · rcases get?_append_cases hgj with ⟨hj, hg2⟩ | ⟨hj, hg2⟩
          · exact h.mono i j r s hij hg1 hg2
          · have hr1 : r.group_id ≤ st.1.length := by
              have := h.gid_le i r hg1
              omega
            have hs1 : s.group_id = st.1.length + 1 := by
              rcases dupBlock_get? hg2 with ⟨-, rfl⟩ | ⟨e, k2, -, -, rfl⟩ <;> rfl
            omega
        · rcases get?_append_cases hgj with ⟨hj, hg2⟩ | ⟨hj, hg2⟩
          · omega
          · have hr1 : r.group_id = st.1.length + 1 := by
              rcases dupBlock_get? hg1 with ⟨-, rfl⟩ | ⟨e, k2, -, -, rfl⟩ <;> rfl
            have hs1 : s.group_id = st.1.length + 1 := by
              rcases dupBlock_get? hg2 with ⟨-, rfl⟩ | ⟨e, k2, -, -, rfl⟩ <;> rfl
            omega
      -- seed_at
      · intro i r hget hrank
        rcases get?_append_cases hget with ⟨hi, hg⟩ | ⟨hi, hg⟩
        · exact h.seed_at i r hg hrank
        · rcases dupBlock_get? hg with ⟨hk0, rfl⟩ | ⟨e, k2, hk, hek, rfl⟩
          · have hieq : i = st.1.length := by omega
            show st.1.length + 1 = i + 1
            omega
          · exfalso
            have hc : (find_similar_tracks catalog (catalog.getD idx default) idx thr
                method st.2).countP (fun x => e.score ≤ x.score) + 2 = 1 := hrank
            omega
      -- shape
      · intro g
        rw [show ((st.1 ++ dupBlock (find_similar_tracks catalog (catalog.getD idx default)
            idx thr method st.2) (catalog.getD idx default) idx (st.1.length + 1),
            (st.2 ++ (find_similar_tracks catalog (catalog.getD idx default) idx thr method
              st.2).map (fun e => e.idx)) ++ [idx]) :
            List DupRow × List ℕ).1 = st.1 ++ dupBlock
            (find_similar_tracks catalog (catalog.getD idx default) idx thr method st.2)
            (catalog.getD idx default) idx (st.1.length + 1) from rfl]
        unfold GroupShape
        rw [List.filter_append]
        by_cases hg : g = st.1.length + 1
        · subst hg
          have hfilter1 : st.1.filter (fun r => r.group_id == st.1.length + 1) = [] := by
            rw [List.filter_eq_nil]
            intro r hr
            have := rows_gid_le_len h r hr
            simp only [beq_iff_eq]
            omega
          have hfilter2 : (dupBlock (find_similar_tracks catalog (catalog.getD idx default)
              idx thr method st.2) (catalog.getD idx default) idx
              (st.1.length + 1)).filter (fun r => r.group_id == st.1.length + 1) =
              dupBlock (find_similar_tracks catalog (catalog.getD idx default)
                idx thr method st.2) (catalog.getD idx default) idx (st.1.length + 1) := by
            rw [List.filter_eq_self]
            intro r hr
            rw [dupBlock_gid r hr]
            exact beq_self_eq_true _
          rw [hfilter1, hfilter2, List.nil_append]
          right
          refine ⟨_, _, rfl, rfl, rfl, rfl, ?_, ?_⟩
          · exact List.Pairwise.map _ (fun a b hab => hab)
              (find_similar_tracks_sorted catalog (catalog.getD idx default) idx thr
                method st.2)
          · intro d hd
            rcases List.mem_map.mp hd with ⟨e, he, rfl⟩
            refine ⟨rfl, (find_similar_tracks_mem he).1, ?_⟩
            rw [List.countP_map]
            rfl
        · have hfilter2 : (dupBlock (find_similar_tracks catalog (catalog.getD idx default)
              idx thr method st.2) (catalog.getD idx default) idx
              (st.1.length + 1)).filter (fun r => r.group_id == g) = [] := by
            rw [List.filter_eq_nil]
            intro r hr
            rw [dupBlock_gid r hr]
            simp only [beq_iff_eq]
            omega
          rw [hfilter2, List.append_nil]
          exact h.shape g

theorem dupInv_init (thr : ℚ) : DupInv thr ([], []) := by
  constructor
  · intro r hr
    cases hr
  · exact List.nodup_nil
  · intro i r hget
    cases i <;> cases hget
  · intro i j r s _ hget
    cases i <;> cases hget
  · intro i r hget
    cases i <;> cases hget
  · intro g
    left
    rfl

theorem foldl_dupStep_preserves (catalog : List Track) (thr : ℚ) (method : String) :
    ∀ (l : List ℕ) (st : List DupRow × List ℕ), DupInv thr st →
      DupInv thr (l.foldl (dupStep catalog thr method) st) := by
  intro l
  induction l with
  | nil => intro st h; exact h
  | cons i rest ih =>
    intro st h
    exact ih _ (dupStep_preserves catalog thr method st i h)

/-- Every invariant component holds of the emitted rows of a full
`find_duplicates` run. -/
theorem find_duplicates_inv (catalog : List Track) (thr : ℚ) (method : String) :
    ∃ proc, DupInv thr (find_duplicates catalog thr method, proc) := by
  unfold find_duplicates
  split
  · exact ⟨[], dupInv_init thr⟩
  · exact ⟨_, foldl_dupStep_preserves catalog thr method _ _ (dupInv_init thr)⟩

theorem dupStepC_preserves (catalog : List Track) (thr : ℚ) (method : String)
    (st : List DupRow × List ℕ) (idx : ℕ)
    (h : DupInvC catalog thr method st) :
    DupInvC catalog thr method (dupStep catalog thr method st idx) := by
  unfold dupStep
  split
  · exact h
  · rename_i hidx
    split
    · exact h
    · rename_i hsims
      refine ⟨?_, ?_, ?_⟩
      -- base
      · have hb := dupStep_preserves catalog thr method st idx h.base
        unfold dupStep at hb
        rw [if_neg hidx, if_neg hsims] at hb
        exact hb
      -- proc_mem
      · intro p hp
        rcases List.mem_append.mp hp with hp1 | hp2
        · rcases List.mem_append.mp hp1 with hp3 | hp4
          · rcases h.proc_mem p hp3 with ⟨r, hr, hrp⟩
            exact ⟨r, List.mem_append.mpr (Or.inl hr), hrp⟩
          · rcases List.mem_map.mp hp4 with ⟨e, he, rfl⟩
            exact ⟨_, List.mem_append.mpr (Or.inr (List.mem_cons.mpr
              (Or.inr (List.mem_map.mpr ⟨e, he, rfl⟩)))), rfl⟩
        · have hpidx : p = idx := List.mem_singleton.mp hp2
          subst hpidx
          exact ⟨_, List.mem_append.mpr (Or.inr (List.mem_cons.mpr (Or.inl rfl))), rfl⟩
      -- complete
      · intro g
        rw [show ((st.1 ++ dupBlock (find_similar_tracks catalog (catalog.getD idx default)
            idx thr method st.2) (catalog.getD idx default) idx (st.1.length + 1),
            (st.2 ++ (find_similar_tracks catalog (catalog.getD idx default) idx thr method
              st.2).map (fun e => e.idx)) ++ [idx]) :
            List DupRow × List ℕ).1 = st.1 ++ dupBlock
            (find_similar_tracks catalog (catalog.getD idx default) idx thr method st.2)
            (catalog.getD idx default) idx (st.1.length + 1) from rfl]
        unfold GroupComplete
        intro s0 ds hfilter i hi hlt hnot hthr
        by_cases hg : g = st.1.length + 1
        · subst hg
          have hfilter1 : st.1.filter (fun r => r.group_id == st.1.length + 1) = [] := by
            rw [List.filter_eq_nil]
            intro r hr
            have := rows_gid_le_len h.base r hr
            simp only [beq_iff_eq]
            omega
          have hfilter2 : (dupBlock (find_similar_tracks catalog (catalog.getD idx default)
              idx thr method st.2) (catalog.getD idx default) idx
              (st.1.length + 1)).filter (fun r => r.group_id == st.1.length + 1) =
              dupBlock (find_similar_tracks catalog (catalog.getD idx default)
                idx thr method st.2) (catalog.getD idx default) idx (st.1.length + 1) := by
            rw [List.filter_eq_self]
            intro r hr
            rw [dupBlock_gid r hr]
            exact beq_self_eq_true _
          rw [List.filter_append, hfilter1, hfilter2, List.nil_append] at hfilter
          unfold dupBlock at hfilter
          injection hfilter with hs0 hds
          subst hs0
          subst hds
          have hlt2 : idx < i := hlt
          have hthr2 : thr ≤ calcSimTracks (catalog.getD idx default)
              (catalog.getD i default) method := hthr
          have hiproc : i ∉ st.2 := by
            intro hip
            rcases h.proc_mem i hip with ⟨r, hr, hrt⟩
            have hgl : r.group_id < st.1.length + 1 :=
              Nat.lt_succ_of_le (rows_gid_le_len h.base r hr)
            exact hnot r (List.mem_append.mpr (Or.inl hr)) hgl hrt
          have hcand : simCand catalog (catalog.getD idx default) idx thr method st.2 i =
              some ⟨catalog.getD i default, i, calcSimTracks (catalog.getD idx default)
                (catalog.getD i default) method⟩ := by
            unfold simCand
            rw [if_neg (by rw [not_or]; exact ⟨not_le.mpr hlt2, hiproc⟩), if_pos hthr2]
          have hmems : (⟨catalog.getD i default, i,
              calcSimTracks (catalog.getD idx default)
                (catalog.getD i default) method⟩ : SimEntry) ∈
              find_similar_tracks catalog (catalog.getD idx default) idx thr
                method st.2 := by
            unfold find_similar_tracks
            exact (sortDesc_perm _).mem_iff.mpr
              (List.mem_filterMap.mpr ⟨i, List.mem_range.mpr hi, hcand⟩)
          exact ⟨_, List.mem_map.mpr ⟨_, hmems, rfl⟩, rfl, rfl⟩
        · have hfilter2 : (dupBlock (find_similar_tracks catalog (catalog.getD idx default)
              idx thr method st.2) (catalog.getD idx default) idx
              (st.1.length + 1)).filter (fun r => r.group_id == g) = [] := by
            rw [List.filter_eq_nil]
            intro r hr
            rw [dupBlock_gid r hr]
            simp only [beq_iff_eq]
            omega
          rw [List.filter_append, hfilter2, List.append_nil] at hfilter
          exact h.complete g s0 ds hfilter i hi hlt
            (fun r hr => hnot r (List.mem_append.mpr (Or.inl hr))) hthr

theorem dupInvC_init (catalog : List Track) (thr : ℚ) (method : String) :
    DupInvC catalog thr method ([], []) := by
  refine ⟨dupInv_init thr, ?_, ?_⟩
  · intro p hp
    cases hp
  · intro g
    unfold GroupComplete
    intro s0 ds hfilter
    cases hfilter

theorem foldl_dupStepC_preserves (catalog : List Track) (thr : ℚ) (method : String) :
    ∀ (l : List ℕ) (st : List DupRow × List ℕ), DupInvC catalog thr method st →
      DupInvC catalog thr method (l.foldl (dupStep catalog thr method) st) := by
  intro l
  induction l with
  | nil => intro st h; exact h
  | cons i rest ih =>
    intro st h
    exact ih _ (dupStepC_preserves catalog thr method st i h)

/-- The extended invariant holds of the emitted rows of a full
`find_duplicates` run. -/
theorem find_duplicatesC_inv (catalog : List Track) (thr : ℚ) (method : String) :
    ∃ proc, DupInvC catalog thr method (find_duplicates catalog thr method, proc) := by
  unfold find_duplicates
  split
  · exact ⟨[], dupInvC_init catalog thr method⟩
  · exact ⟨_, foldl_dupStepC_preserves catalog thr method _ _
      (dupInvC_init catalog thr method)⟩

/-- C5: one run of `find_duplicates` never emits the same catalog position
twice — a record belongs to at most one Duplicate Group, and once emitted
(as original or duplicate) it is never reconsidered. -/
theorem claim5_no_position_in_two_groups (catalog : List Track) (thr : ℚ)
    (method : String) :
    ((find_duplicates catalog thr method).map (fun r => r.track_index)).Nodup := by
  rcases find_duplicates_inv catalog thr method with ⟨proc, h⟩
  exact h.nodup

/-- C1 (amended): in every run, the rows of each emitted group id form the
seed first (`original`, rank 1, similarity 100) followed by the qualifying
candidates in descending-similarity order, each a `duplicate` with
similarity at least the threshold; no qualifying candidate is omitted —
every catalog position after the seed's that no earlier group's row
carries and whose similarity to the seed reaches the threshold appears
among the duplicates, with that similarity.  But a candidate's rank is
`2 + (number of the group's candidates whose similarity is at least its
own)`, which counts the candidate itself: with distinct scores the ranks run
3, 4, 5, …, never 2, and tied candidates share a (skipping) rank. -/
theorem claim1_amended_group_layout (catalog : List Track) (thr : ℚ)
    (method : String) (g : ℕ) :
    (find_duplicates catalog thr method).filter (fun r => r.group_id == g) = [] ∨
    ∃ s0 ds,
      (find_duplicates catalog thr method).filter (fun r => r.group_id == g) =
        s0 :: ds ∧
      s0.rank = 1 ∧ s0.status = "original" ∧ s0.similarity = 100 ∧
      ds.Pairwise (fun a b => b.similarity ≤ a.similarity) ∧
      (∀ d ∈ ds, d.status = "duplicate" ∧ thr ≤ d.similarity ∧
        d.rank = ds.countP (fun e2 => d.similarity ≤ e2.similarity) + 2) ∧
      (∀ i, i < catalog.length → s0.track_index < i →
        (∀ r ∈ find_duplicates catalog thr method, r.group_id < g →
          r.track_index ≠ i) →
        thr ≤ calcSimTracks (catalog.getD s0.track_index default)
          (catalog.getD i default) method →
        ∃ d ∈ ds, d.track_index = i ∧
          d.similarity = calcSimTracks (catalog.getD s0.track_index default)
            (catalog.getD i default) method) := by
  rcases find_duplicatesC_inv catalog thr method with ⟨proc, h⟩
  rcases h.base.shape g with hnil | ⟨s0, ds, hfilter, h1, h2, h3, h4, h5⟩
  · exact Or.inl hnil
  · exact Or.inr ⟨s0, ds, hfilter, h1, h2, h3, h4, h5,
      fun i hi hlt hnot hthr => h.complete g s0 ds hfilter i hi hlt hnot hthr⟩

/-- C1 (counterexample): two identical tracks form one group, but the single
qualifying duplicate receives rank 3, not rank 2 as claimed — the rank
count `t[2] >= similarity_score` includes the candidate itself. -/
theorem claim1_counterexample_rank_starts_at_3 :
    ((find_duplicates [exTrack "aa" "bb", exTrack "aa" "bb"] 85 "artist_title").map
      (fun r => (r.rank, r.status, r.similarity)) =
      [(1, "original", 100), (3, "duplicate", 100)]) ∧
    ¬((find_duplicates [exTrack "aa" "bb", exTrack "aa" "bb"] 85 "artist_title").map
      (fun r => r.rank) = [1, 2]) := by
  constructor
  · decide
  · decide

/-- C9: group identifiers are one plus the number of rows already emitted —
the seed row of group `g` sits at result position `g - 1` — and they never
decrease along the output, so distinct groups get strictly increasing,
generally non-consecutive ids; concretely, a first group of three rows is
followed by group id 4. -/
theorem claim9_group_ids (catalog : List Track) (thr : ℚ) (method : String) :
    (∀ i j r s, i ≤ j →
      (find_duplicates catalog thr method).get? i = some r →
      (find_duplicates catalog thr method).get? j = some s →
      r.group_id ≤ s.group_id) ∧
    (∀ i r, (find_duplicates catalog thr method).get? i = some r →
      r.group_id ≤ i + 1) ∧
    (∀ i r, (find_duplicates catalog thr method).get? i = some r → r.rank = 1 →
      r.group_id = i + 1) ∧
    (find_duplicates [exTrack "aa" "bb", exTrack "aa" "bb", exTrack "aa" "bb",
      exTrack "cc" "dd", exTrack "cc" "dd"] 85 "artist_title").map
      (fun r => r.group_id) = [1, 1, 1, 4, 4] := by
  rcases find_duplicates_inv catalog thr method with ⟨proc, h⟩
  exact ⟨h.mono, h.gid_le, h.seed_at, by decide⟩

/-! ## Normalizer canonicity (for C6) -/

theorem char_le_iff_toNat {a b : Char} : a ≤ b ↔ a.toNat ≤ b.toNat := by
  rw [Char.le_def, UInt32.le_def, BitVec.le_def]
  exact Iff.rfl

theorem char_toNat_ofNat_valid {n : Nat} (h : n < 55296) : (Char.ofNat n).toNat = n := by
  have hval : n.isValidChar := Or.inl h
  unfold Char.ofNat
  rw [dif_pos hval]
  rfl

theorem pyLower_idem (c : Char) : pyLower (pyLower c) = pyLower c := by
  unfold pyLower
  by_cases h : 'A' ≤ c ∧ c ≤ 'Z'
  · rw [if_pos h, if_neg]
    rintro ⟨h1, h2⟩
    have hc1 : 65 ≤ c.toNat := char_le_iff_toNat.mp h.1
    have hc2 : c.toNat ≤ 90 := char_le_iff_toNat.mp h.2
    have hv : (Char.ofNat (c.toNat + 32)).toNat = c.toNat + 32 :=
      char_toNat_ofNat_valid (by omega)
    have h2n := char_le_iff_toNat.mp h2
    rw [hv] at h2n
    have hz : ('Z' : Char).toNat = 90 := rfl
    omega
  · rw [if_neg h, if_neg h]

theorem removeArts_subset : ∀ (b : Bool) (l : List Char), ∀ c ∈ removeArts b l, c ∈ l := by
  intro b l
  induction b, l using removeArts.induct
  case case1 =>
    intro c hc
    simp [removeArts] at hc
  case case2 c0 rest ih =>
    intro c hc
    simp only [removeArts] at hc
    rcases List.mem_cons.mp hc with rfl | hm
    · exact List.mem_cons_self _ _
    · exact List.mem_cons_of_mem _ (ih c hm)
  case case3 rest h ih =>
    intro c hc
    simp only [removeArts] at hc
    rw [if_pos h] at hc
    exact List.mem_cons_of_mem _ (List.mem_cons_of_mem _ (List.mem_cons_of_mem _ (ih c hc)))
  case case4 rest h ih =>
    intro c hc
    simp only [removeArts] at hc
    rw [if_neg (by simp [h])] at hc
    rcases List.mem_cons.mp hc with rfl | hm
    · exact List.mem_cons_self _ _
    · exact List.mem_cons_of_mem _ (ih c hm)
  case case5 rest h ih =>
    intro c hc
    simp only [removeArts] at hc
    rw [if_pos h] at hc
    exact List.mem_cons_of_mem _ (List.mem_cons_of_mem _ (ih c hc))
  case case6 rest h ih =>
    intro c hc
    simp only [removeArts] at hc
    rw [if_neg (by simp [h])] at hc
    rcases List.mem_cons.mp hc with rfl | hm
    · exact List.mem_cons_self _ _
    · exact List.mem_cons_of_mem _ (ih c hm)
  case case7 rest hx h ih =>
    intro c hc
    simp only [removeArts] at hc
    rw [if_pos h] at hc
    exact List.mem_cons_of_mem _ (ih c hc)
  case case8 rest hx h ih =>
    intro c hc
    simp only [removeArts] at hc
    rw [if_neg (by simp [h])] at hc
    rcases List.mem_cons.mp hc with rfl | hm
    · exact List.mem_cons_self _ _
    · exact List.mem_cons_of_mem _ (ih c hm)
  case case9 c0 rest hx1 hx2 hx3 ih =>
    intro c hc
    simp only [removeArts] at hc
    rcases List.mem_cons.mp hc with rfl | hm
    · exact List.mem_cons_self _ _
    · exact List.mem_cons_of_mem _ (ih c hm)

theorem rmDelimsAux_subset (oC cC : Char) :
    ∀ (l : List Char) (st : Option (List Char)), ∀ c ∈ rmDelimsAux oC cC l st,
      c ∈ l ∨ ∃ buf, st = some buf ∧ c ∈ buf := by
  intro l st
  induction l, st using rmDelimsAux.induct oC cC
  case case1 =>
    intro c hc
    simp [rmDelimsAux] at hc
  case case2 buf =>
    intro c hc
    simp only [rmDelimsAux] at hc
    exact Or.inr ⟨buf, rfl, List.mem_reverse.mp hc⟩
  case case3 rest ih =>
    intro c hc
    simp only [rmDelimsAux] at hc
    rw [if_true] at hc
    rcases ih c hc with hm | ⟨buf, hbuf, hm⟩
    · exact Or.inl (List.mem_cons_of_mem _ hm)
    · rcases Option.some.inj hbuf with rfl
      rcases List.mem_singleton.mp hm with rfl
      exact Or.inl (List.mem_cons_self _ _)
  case case4 c0 rest h ih =>
    intro c hc
    simp only [rmDelimsAux] at hc
    rw [if_neg h] at hc
    rcases List.mem_cons.mp hc with rfl | hm
    · exact Or.inl (List.mem_cons_self _ _)
    · rcases ih c hm with hm2 | ⟨buf, hbuf, -⟩
      · exact Or.inl (List.mem_cons_of_mem _ hm2)
      · cases hbuf
  case case5 rest buf ih =>
    intro c hc
    simp only [rmDelimsAux] at hc
    rw [if_true] at hc
    rcases ih c hc with hm | ⟨buf2, hbuf, -⟩
    · exact Or.inl (List.mem_cons_of_mem _ hm)
    · cases hbuf
  case case6 rest buf h ih =>
    intro c hc
    simp only [rmDelimsAux] at hc
    rw [if_true, if_neg h] at hc
    rcases List.mem_append.mp hc with hm | hm
    · exact Or.inr ⟨buf, rfl, List.mem_reverse.mp hm⟩
    · rcases List.mem_cons.mp hm with rfl | hm2
      · exact Or.inl (List.mem_cons_self _ _)
      · rcases ih c hm2 with hm3 | ⟨buf2, hbuf, -⟩
        · exact Or.inl (List.mem_cons_of_mem _ hm3)
        · cases hbuf
  case case7 c0 rest buf h1 h2 ih =>
    intro c hc
    simp only [rmDelimsAux] at hc
    rw [if_neg h1, if_neg h2] at hc
    rcases ih c hc with hm | ⟨buf2, hbuf, hm⟩
    · exact Or.inl (List.mem_cons_of_mem _ hm)
    · rcases Option.some.inj hbuf with rfl
      rcases List.mem_cons.mp hm with rfl | hm2
      · exact Or.inl (List.mem_cons_self _ _)
      · exact Or.inr ⟨buf, rfl, hm2⟩

theorem removeDelims_subset (oC cC : Char) (l : List Char) :
    ∀ c ∈ removeDelims oC cC l, c ∈ l := by
  intro c hc
  rcases rmDelimsAux_subset oC cC l none c hc with hm | ⟨buf, hbuf, -⟩
  · exact hm
  · cases hbuf

theorem qualAux_subset : ∀ (b : Bool) (l : List Char), ∀ c ∈ qualAux b l, c ∈ l := by
  intro b l
  induction b, l using qualAux.induct
  case case1 =>
    intro c hc
    simp [qualAux] at hc
  case case2 c0 rest h ih =>
    intro c hc
    simp only [qualAux] at hc
    rw [if_pos h] at hc
    exact List.mem_cons_of_mem _ (ih c hc)
  case case3 c0 rest h ih =>
    intro c hc
    simp only [qualAux] at hc
    rw [if_neg h] at hc
    rcases List.mem_cons.mp hc with rfl | hm
    · exact List.mem_cons_self _ _
    · exact List.mem_cons_of_mem _ (ih c hm)
  case case4 rest h ih =>
    intro c hc
    simp only [qualAux] at hc
    rw [if_true, if_pos h] at hc
    exact List.mem_cons_of_mem _ (ih c hc)
  case case5 rest h ih =>
    intro c hc
    simp only [qualAux] at hc
    rw [if_true, if_neg h] at hc
    rcases List.mem_cons.mp hc with rfl | hm
    · exact List.mem_cons_self _ _
    · exact List.mem_cons_of_mem _ (ih c hm)
  case case6 c0 rest h ih =>
    intro c hc
    simp only [qualAux] at hc
    rw [if_neg h] at hc
    exact List.mem_cons_of_mem _ (ih c hc)

theorem rmSpecials_subset (l : List Char) : ∀ c ∈ rmSpecials l, c ∈ l ∨ c = ' ' := by
  intro c hc
  rcases List.mem_map.mp hc with ⟨a, ha, heq⟩
  by_cases hs : !pyWord a && !pyWs a
  · rw [if_pos hs] at heq
    exact Or.inr heq.symm
  · rw [if_neg hs] at heq
    exact Or.inl (heq ▸ ha)

theorem rmSpecials_word_or_ws (l : List Char) :
    ∀ c ∈ rmSpecials l, pyWord c = true ∨ pyWs c = true := by
  intro c hc
  rcases List.mem_map.mp hc with ⟨a, ha, heq⟩
  by_cases hs : !pyWord a && !pyWs a
  · rw [if_pos hs] at heq
    exact Or.inr (heq ▸ rfl)
  · rw [if_neg hs] at heq
    subst heq
    cases hw : pyWord a
    · cases hws : pyWs a
      · exact absurd (by rw [hw, hws]; rfl) hs
      · exact Or.inr rfl
    · exact Or.inl rfl

theorem collapseWs_subset : ∀ (b : Bool) (l : List Char), ∀ c ∈ collapseWs b l,
    (c ∈ l ∧ pyWs c = false) ∨ c = ' ' := by
  intro b l
  induction b, l using collapseWs.induct
  case case1 =>
    intro c hc
    simp [collapseWs] at hc
  case case2 c0 rest h ih =>
    intro c hc
    simp only [collapseWs] at hc
    rw [if_pos h, if_true] at hc
    rcases ih c hc with ⟨hm, hws⟩ | rfl
    · exact Or.inl ⟨List.mem_cons_of_mem _ hm, hws⟩
    · exact Or.inr rfl
  case case3 prevWs c0 rest h hp ih =>
    intro c hc
    simp only [collapseWs] at hc
    rw [if_pos h, if_neg hp] at hc
    rcases List.mem_cons.mp hc with rfl | hm
    · exact Or.inr rfl
    · rcases ih c hm with ⟨hm2, hws⟩ | rfl
      · exact Or.inl ⟨List.mem_cons_of_mem _ hm2, hws⟩
      · exact Or.inr rfl
  case case4 prevWs c0 rest h ih =>
    intro c hc
    simp only [collapseWs] at hc
    rw [if_neg h] at hc
    rcases List.mem_cons.mp hc with rfl | hm
    · refine Or.inl ⟨List.mem_cons_self _ _, ?_⟩
      cases hws : pyWs c
      · rfl
      · exact absurd hws h
    · rcases ih c hm with ⟨hm2, hws⟩ | rfl
      · exact Or.inl ⟨List.mem_cons_of_mem _ hm2, hws⟩
      · exact Or.inr rfl

theorem pyStrip_subset (l : List Char) : ∀ c ∈ pyStrip l, c ∈ l := by
  intro c hc
  unfold pyStrip at hc
  have h1 := List.mem_reverse.mp hc
  have h2 := (List.dropWhile_sublist (l := (l.dropWhile (fun c => pyWs c)).reverse)
    (p := fun c => pyWs c)).subset h1
  have h3 := List.mem_reverse.mp h2
  exact (List.dropWhile_sublist (l := l) (p := fun c => pyWs c)).subset h3

theorem ws_not_word : ∀ c : Char, pyWs c = true → pyWord c = false := by
  intro c h
  simp only [pyWs, Bool.or_eq_true, beq_iff_eq] at h
  rcases h with ((((rfl | rfl) | rfl) | rfl) | rfl) | rfl <;> rfl

/-- Characters of the normal form are fixed by lowercasing: they descend
from the lowercased input, or are introduced spaces. -/
theorem normalizeCore_lower_fixed (sq : Bool) (l : List Char) :
    ∀ c ∈ normalizeCore sq l, pyLower c = c := by
  intro c hc
  unfold normalizeCore at hc
  have h1 := pyStrip_subset _ c hc
  rcases collapseWs_subset false _ c h1 with ⟨h2, -⟩ | rfl
  · rcases rmSpecials_subset _ c h2 with h3 | rfl
    · have h4 : c ∈ removeDelims '[' ']' (removeDelims '(' ')'
          (removeArts false (l.map pyLower))) := by
        rcases sq with _ | _
        · exact h3
        · exact qualAux_subset false _ c h3
      have h5 := removeDelims_subset '[' ']' _ c h4
      have h6 := removeDelims_subset '(' ')' _ c h5
      have h7 := removeArts_subset false _ c h6
      rcases List.mem_map.mp h7 with ⟨a, -, rfl⟩
      exact pyLower_idem a
    · rfl
  · rfl

/-- Characters of the normal form are word characters or single spaces. -/
theorem normalizeCore_word_or_space (sq : Bool) (l : List Char) :
    ∀ c ∈ normalizeCore sq l, pyWord c = true ∨ c = ' ' := by
  intro c hc
  unfold normalizeCore at hc
  have h1 := pyStrip_subset _ c hc
  rcases collapseWs_subset false _ c h1 with ⟨h2, hnw⟩ | rfl
  · rcases rmSpecials_word_or_ws _ c h2 with hw | hws
    · exact Or.inl hw
    · rw [hws] at hnw
      cases hnw
  · exact Or.inr rfl

theorem collapseWs_head_ws_false :
    ∀ (l : List Char) (c : Char), (collapseWs true l).head? = some c → pyWs c = false := by
  intro l
  induction l with
  | nil =>
    intro c hc
    cases hc
  | cons c0 rest ih =>
    intro c hc
    by_cases h : pyWs c0
    · have he : collapseWs true (c0 :: rest) = collapseWs true rest := by
        simp only [collapseWs]
        rw [if_pos h, if_true]
      exact ih c (he ▸ hc)
    · have he : collapseWs true (c0 :: rest) = c0 :: collapseWs false rest := by
        simp only [collapseWs]
        rw [if_neg h]
      rw [he] at hc
      have hc0 := Option.some.inj hc
      subst hc0
      cases hws : pyWs c0
      · rfl
      · exact absurd hws h

theorem collapseWs_chain : ∀ (b : Bool) (l : List Char),
    List.Chain' (fun a b2 => ¬(pyWs a = true ∧ pyWs b2 = true)) (collapseWs b l) := by
  intro b l
  induction b, l using collapseWs.induct
  case case1 => exact List.chain'_nil
  case case2 c0 rest h ih =>
    have he : collapseWs true (c0 :: rest) = collapseWs true rest := by
      simp only [collapseWs]
      rw [if_pos h, if_true]
    rw [he]
    exact ih
  case case3 prevWs c0 rest h hp ih =>
    have he : collapseWs prevWs (c0 :: rest) = ' ' :: collapseWs true rest := by
      simp only [collapseWs]
      rw [if_pos h, if_neg hp]
    rw [he]
    rw [List.chain'_cons']
    refine ⟨?_, ih⟩
    intro d hd
    rintro ⟨-, hwd⟩
    rw [collapseWs_head_ws_false rest d hd] at hwd
    cases hwd
  case case4 prevWs c0 rest h ih =>
    have he : collapseWs prevWs (c0 :: rest) = c0 :: collapseWs false rest := by
      simp only [collapseWs]
      rw [if_neg h]
    rw [he]
    rw [List.chain'_cons']
    refine ⟨?_, ih⟩
    intro d hd
    rintro ⟨hwc, -⟩
    exact h hwc

theorem chain'_dropWhile {R : Char → Char → Prop} (p : Char → Bool) :
    ∀ l : List Char, List.Chain' R l → List.Chain' R (l.dropWhile p) := by
  intro l
  induction l with
  | nil => intro h; exact h
  | cons c rest ih =>
    intro h
    by_cases hp : p c
    · rw [List.dropWhile_cons, if_pos hp]
      exact ih h.tail
    · rw [List.dropWhile_cons, if_neg hp]
      exact h

theorem chain'_pyStrip {R : Char → Char → Prop}
    (hsym : ∀ a b, R a b → R b a) (l : List Char) (h : List.Chain' R l) :
    List.Chain' R (pyStrip l) := by
  unfold pyStrip
  have h1 := chain'_dropWhile (fun c => pyWs c) l h
  have h2 : List.Chain' R (l.dropWhile (fun c => pyWs c)).reverse :=
    List.chain'_reverse.mpr (h1.imp fun a b hab => hsym a b hab)
  have h3 := chain'_dropWhile (fun c => pyWs c) _ h2
  exact List.chain'_reverse.mpr (h3.imp fun a b hab => hsym a b hab)

theorem dropWhile_head_false (p : Char → Bool) :
    ∀ (l : List Char) (c : Char), (l.dropWhile p).head? = some c → p c = false := by
  intro l
  induction l with
  | nil =>
    intro c hc
    cases hc
  | cons c0 rest ih =>
    intro c hc
    by_cases hp : p c0
    · rw [List.dropWhile_cons, if_pos hp] at hc
      exact ih c hc
    · rw [List.dropWhile_cons, if_neg hp] at hc
      have := Option.some.inj hc
      subst this
      cases hp2 : p c0
      · rfl
      · exact absurd hp2 hp

theorem dropWhile_fixed (p : Char → Bool) (l : List Char)
    (h : ∀ c, l.head? = some c → p c = false) : l.dropWhile p = l := by
  cases l with
  | nil => rfl
  | cons c rest =>
    rw [List.dropWhile_cons, if_neg]
    rw [h c rfl]
    simp

theorem dropWhile_idem (p : Char → Bool) (l : List Char) :
    (l.dropWhile p).dropWhile p = l.dropWhile p :=
  dropWhile_fixed p _ (dropWhile_head_false p l)

theorem getLast?_dropWhile (p : Char → Bool) :
    ∀ (l : List Char) (c : Char), (l.dropWhile p).getLast? = some c →
      l.getLast? = some c := by
  intro l
  induction l with
  | nil =>
    intro c hc
    cases hc
  | cons c0 rest ih =>
    intro c hc
    by_cases hp : p c0
    · rw [List.dropWhile_cons, if_pos hp] at hc
      have hr := ih c hc
      have hne : rest ≠ [] := by
        intro he
        rw [he] at hr
        cases hr
      rcases List.exists_cons_of_ne_nil hne with ⟨d, rest2, rfl⟩
      rw [List.getLast?_cons_cons]
      exact hr
    · rw [List.dropWhile_cons, if_neg hp] at hc
      exact hc

theorem pyStrip_idem (l : List Char) : pyStrip (pyStrip l) = pyStrip l := by
  have hA : (pyStrip l).dropWhile (fun c => pyWs c) = pyStrip l := by
    apply dropWhile_fixed
    intro c hc
    unfold pyStrip at hc
    rw [List.head?_reverse] at hc
    have h2 := getLast?_dropWhile _ _ _ hc
    rw [List.getLast?_reverse] at h2
    exact dropWhile_head_false _ _ _ h2
  show ((((pyStrip l).dropWhile (fun c => pyWs c)).reverse.dropWhile
      (fun c => pyWs c)).reverse) = pyStrip l
  rw [hA]
  unfold pyStrip
  rw [List.reverse_reverse, dropWhile_idem]

theorem rmDelims_fixed (oC cC : Char) :
    ∀ l : List Char, oC ∉ l → removeDelims oC cC l = l := by
  intro l
  induction l with
  | nil => intro _; rfl
  | cons c rest ih =>
    intro h
    show rmDelimsAux oC cC (c :: rest) none = c :: rest
    have hc : ¬c = oC := fun he => h (he ▸ List.mem_cons_self _ _)
    simp only [rmDelimsAux]
    rw [if_neg hc]
    have := ih (fun hm => h (List.mem_cons_of_mem _ hm))
    rw [show rmDelimsAux oC cC rest none = removeDelims oC cC rest from rfl, this]

theorem qualHit_false {l : List Char} (h : '-' ∉ l) : qualHit l = false := by
  unfold qualHit
  rcases hd : dropWs l with _ | ⟨c, r2⟩
  · rfl
  · have hcl : c ∈ l := by
      have hmem : c ∈ dropWs l := hd ▸ List.mem_cons_self _ _
      exact (List.dropWhile_sublist (p := fun c => pyWs c)).subset hmem
    have hne : ¬(c = '-') := fun he => h (he ▸ hcl)
    have hbeq : (c == '-') = false := beq_eq_false_iff_ne.mpr hne
    show ((c == '-') && qualAfterDash r2) = false
    rw [hbeq]
    rfl

theorem qualStrip_fixed : ∀ l : List Char, '-' ∉ l → qualStrip l = l := by
  intro l
  induction l with
  | nil => intro _; rfl
  | cons c rest ih =>
    intro h
    show qualAux false (c :: rest) = c :: rest
    simp only [qualAux]
    rw [qualHit_false h]
    simp only [Bool.false_eq_true, if_false]
    have := ih (fun hm => h (List.mem_cons_of_mem _ hm))
    rw [show qualAux false rest = qualStrip rest from rfl, this]

theorem rmSpecials_fixed : ∀ l : List Char,
    (∀ c ∈ l, pyWord c = true ∨ c = ' ') → rmSpecials l = l := by
  intro l
  induction l with
  | nil => intro _; rfl
  | cons c rest ih =>
    intro h
    show (if !pyWord c && !pyWs c then ' ' else c) :: rmSpecials rest = c :: rest
    have hrest := ih (fun d hd => h d (List.mem_cons_of_mem _ hd))
    rcases h c (List.mem_cons_self _ _) with hw | rfl
    · rw [if_neg (by rw [hw]; simp), hrest]
    · rw [if_neg (by simp [pyWs]), hrest]

theorem mapLower_fixed : ∀ l : List Char,
    (∀ c ∈ l, pyLower c = c) → l.map pyLower = l := by
  intro l
  induction l with
  | nil => intro _; rfl
  | cons c rest ih =>
    intro h
    rw [List.map_cons, h c (List.mem_cons_self _ _),
      ih (fun d hd => h d (List.mem_cons_of_mem _ hd))]

theorem collapseWs_fixed :
    ∀ l : List Char,
      List.Chain' (fun a b2 => ¬(pyWs a = true ∧ pyWs b2 = true)) l →
      (∀ c ∈ l, pyWs c = true → c = ' ') →
      collapseWs false l = l ∧
        ((∀ c, l.head? = some c → pyWs c = false) → collapseWs true l = l) := by
  intro l
  induction l with
  | nil => intro _ _; exact ⟨rfl, fun _ => rfl⟩
  | cons c rest ih =>
    intro hch hsp
    rcases ih hch.tail (fun d hd => hsp d (List.mem_cons_of_mem _ hd)) with ⟨ihf, iht⟩
    by_cases hws : pyWs c
    · have hceq : c = ' ' := hsp c (List.mem_cons_self _ _) hws
      have hrest : collapseWs true rest = rest := by
        apply iht
        intro d hd
        rcases rest with _ | ⟨d0, rest2⟩
        · cases hd
        · have hrel := List.chain'_cons'.mp hch
          have := hrel.1 d hd
          cases hwd : pyWs d
          · rfl
          · exact absurd ⟨hws, hwd⟩ this
      constructor
      · show collapseWs false (c :: rest) = c :: rest
        simp only [collapseWs]
        rw [if_pos hws, if_neg (by simp), hrest, hceq]
      · intro hhead
        have := hhead c rfl
        rw [hws] at this
        cases this
    · constructor
      · show collapseWs false (c :: rest) = c :: rest
        simp only [collapseWs]
        rw [if_neg hws, ihf]
      · intro _
        show collapseWs true (c :: rest) = c :: rest
        simp only [collapseWs]
        rw [if_neg hws, ihf]

/-- On an article-free normal form, every normalizer stage is the identity:
normalization is idempotent exactly up to newly-formed articles. -/
theorem normalizeCore_fixed_of_article_free (sq : Bool) (l : List Char)
    (harts : removeArts false (normalizeCore sq l) = normalizeCore sq l) :
    normalizeCore sq (normalizeCore sq l) = normalizeCore sq l := by
  have hP1 := normalizeCore_lower_fixed sq l
  have hP2 := normalizeCore_word_or_space sq l
  have hnoParen : '(' ∉ normalizeCore sq l := by
    intro hm
    rcases hP2 '(' hm with hw | he
    · cases hw
    · cases he
  have hnoBracket : '[' ∉ normalizeCore sq l := by
    intro hm
    rcases hP2 '[' hm with hw | he
    · cases hw
    · cases he
  have hnoDash : '-' ∉ normalizeCore sq l := by
    intro hm
    rcases hP2 '-' hm with hw | he
    · cases hw
    · cases he
  have hWsSpace : ∀ c ∈ normalizeCore sq l, pyWs c = true → c = ' ' := by
    intro c hm hws
    rcases hP2 c hm with hw | he
    · rw [ws_not_word c hws] at hw
      cases hw
    · exact he
  have hchain : List.Chain' (fun a b2 => ¬(pyWs a = true ∧ pyWs b2 = true))
      (normalizeCore sq l) := by
    unfold normalizeCore
    exact chain'_pyStrip (fun a b hab ⟨h1, h2⟩ => hab ⟨h2, h1⟩) _
      (collapseWs_chain false _)
  have hQual : (if sq then qualStrip else id) (normalizeCore sq l) = normalizeCore sq l := by
    rcases sq with _ | _
    · rfl
    · exact qualStrip_fixed _ hnoDash
  have hlast : pyStrip (normalizeCore sq l) = normalizeCore sq l := by
    unfold normalizeCore
    exact pyStrip_idem _
  show pyStrip (collapseWs false (rmSpecials
      ((if sq then qualStrip else id)
        (removeDelims '[' ']' (removeDelims '(' ')'
          (removeArts false ((normalizeCore sq l).map pyLower))))))) = normalizeCore sq l
  rw [mapLower_fixed _ hP1, harts, rmDelims_fixed '(' ')' _ hnoParen,
    rmDelims_fixed '[' ']' _ hnoBracket, hQual, rmSpecials_fixed _ hP2,
    (collapseWs_fixed _ hchain hWsSpace).1, hlast]

/-- C6 (counterexample): the normalizer is not idempotent.  On `"t(x)he"`,
the article pass sees no stand-alone article, but deleting `(x)` then glues
`t` and `he` into the word `the`, which a second normalization deletes —
for both variants. -/
theorem claim6_counterexample_not_idempotent :
    normalizeRaw false (RawText.str (normalizeRaw false (RawText.str "t(x)he"))) ≠
      normalizeRaw false (RawText.str "t(x)he") ∧
    normalizeRaw true (RawText.str (normalizeRaw true (RawText.str "t(x)he"))) ≠
      normalizeRaw true (RawText.str "t(x)he") := by
  constructor
  · decide
  · decide

/-- C6 (amended): both normalizer variants are idempotent on every input
whose normal form is article-free, i.e. whenever the article pass fixes the
first result — the only idempotence failures are normal forms containing a
newly-formed stand-alone `the`/`a`/`an`. -/
theorem claim6_amended_idempotent_when_article_free (sq : Bool) (s : String)
    (h : removeArts false (normalizeRaw sq (RawText.str s)).data =
      (normalizeRaw sq (RawText.str s)).data) :
    normalizeRaw sq (RawText.str (normalizeRaw sq (RawText.str s))) =
      normalizeRaw sq (RawText.str s) := by
  by_cases hs : s = ""
  · subst hs
    rfl
  · have he : normalizeRaw sq (RawText.str s) = ⟨normalizeCore sq s.data⟩ := by
      simp [normalizeRaw, hs]
    rw [he] at h ⊢
    by_cases hz : (⟨normalizeCore sq s.data⟩ : String) = ""
    · rw [hz]
      rfl
    · rw [show normalizeRaw sq (RawText.str ⟨normalizeCore sq s.data⟩) =
          ⟨normalizeCore sq (normalizeCore sq s.data)⟩ from by simp [normalizeRaw, hz]]
      exact congrArg String.mk (normalizeCore_fixed_of_article_free sq s.data h)

/-- C6 (witness): the amended idempotence at a concrete article-free input. -/
theorem claim6_witness :
    (removeArts false (normalizeRaw false (RawText.str "Daft Punk")).data =
      (normalizeRaw false (RawText.str "Daft Punk")).data) ∧
    normalizeRaw false (RawText.str (normalizeRaw false (RawText.str "Daft Punk"))) =
      normalizeRaw false (RawText.str "Daft Punk") :=
  ⟨by decide, claim6_amended_idempotent_when_article_free false "Daft Punk" (by decide)⟩

/-! ## Witnesses at concrete inputs -/

/-- C2 (witness): one source record against one target record. -/
theorem claim2_witness :
    (find_gaps_fast [exPhys "aa" "bb"] [exDig "cc" "dd"] (fun _ => []) 80).length =
      ([exPhys "aa" "bb"] : List PhysTrack).length ∧
    (∀ i, (find_gaps_fast [exPhys "aa" "bb"] [exDig "cc" "dd"] (fun _ => []) 80).get? i =
      (([exPhys "aa" "bb"] : List PhysTrack).get? i).map
        (fun p => find_track_fast [exDig "cc" "dd"] [] p 80)) ∧
    (find_gaps [exPhys "aa" "bb"] [exDig "cc" "dd"] 80).length =
      ([exPhys "aa" "bb"] : List PhysTrack).length ∧
    (∀ i, (find_gaps [exPhys "aa" "bb"] [exDig "cc" "dd"] 80).get? i =
      (([exPhys "aa" "bb"] : List PhysTrack).get? i).map
        (fun p => find_track_slow [exDig "cc" "dd"] p 80)) :=
  claim2_one_result_per_source [exPhys "aa" "bb"] [exDig "cc" "dd"] (fun _ => []) 80
    (by decide) (by decide)

/-- C4 (witness): a target artist sharing the 3-character prefix `abc` with
the query is found in the pre-cap candidate union. -/
theorem claim4_witness :
    0 ∈ candPreCap [exDig "abcd" "qqq"] (normG (exPhys "abcx" "zzz").artist)
      (normG (exPhys "abcx" "zzz").title) :=
  claim4_index_complete [exDig "abcd" "qqq"] (exPhys "abcx" "zzz") 0 (exDig "abcd" "qqq")
    (by decide) (by decide) (Or.inl ⟨by decide, by decide, by decide⟩)

/-- C8 (witness): thresholds 50 ≤ 80 on a one-record pair. -/
theorem claim8_witness :
    (find_gaps_fast [exPhys "aa" "bb"] [exDig "aa" "bb"] (fun _ => []) 80).countP
        (fun r => r.status == "found") ≤
      (find_gaps_fast [exPhys "aa" "bb"] [exDig "aa" "bb"] (fun _ => []) 50).countP
        (fun r => r.status == "found") ∧
    (find_gaps [exPhys "aa" "bb"] [exDig "aa" "bb"] 80).countP
        (fun r => r.status == "found") ≤
      (find_gaps [exPhys "aa" "bb"] [exDig "aa" "bb"] 50).countP
        (fun r => r.status == "found") :=
  claim8_threshold_monotone [exPhys "aa" "bb"] [exDig "aa" "bb"] (fun _ => []) 50 80
    (by decide)

/-- C10 (witness): a query with no index hit falls back to the sample `[0]`
of the one-record target; the blank-iff-all-zero equivalence holds there. -/
theorem claim10_witness :
    candidatesOf [exDig "zzz" "qqq"] [0] (normG (exPhys "mmm" "nnn").artist)
      (normG (exPhys "mmm" "nnn").title) ≠ [] ∧
    (((find_track_fast [exDig "zzz" "qqq"] [0] (exPhys "mmm" "nnn") 80).digital_artist =
        RawText.str "" ∧
      (find_track_fast [exDig "zzz" "qqq"] [0] (exPhys "mmm" "nnn") 80).digital_title =
        RawText.str "" ∧
      (find_track_fast [exDig "zzz" "qqq"] [0] (exPhys "mmm" "nnn") 80).digital_album =
        RawText.str "" ∧
      (find_track_fast [exDig "zzz" "qqq"] [0] (exPhys "mmm" "nnn") 80).digital_genre =
        RawText.str "" ∧
      (find_track_fast [exDig "zzz" "qqq"] [0] (exPhys "mmm" "nnn") 80).digital_bpm = 0 ∧
      (find_track_fast [exDig "zzz" "qqq"] [0] (exPhys "mmm" "nnn") 80).artist_score = 0 ∧
      (find_track_fast [exDig "zzz" "qqq"] [0] (exPhys "mmm" "nnn") 80).title_score = 0 ∧
      (find_track_fast [exDig "zzz" "qqq"] [0] (exPhys "mmm" "nnn") 80).combined_score = 0) ↔
     ∀ i ∈ candidatesOf [exDig "zzz" "qqq"] [0] (normG (exPhys "mmm" "nnn").artist)
        (normG (exPhys "mmm" "nnn").title),
       crossScore (normG (exPhys "mmm" "nnn").artist) (normG (exPhys "mmm" "nnn").title)
         (normG (([exDig "zzz" "qqq"] : List DigTrack).getD i default).artist)
         (normG (([exDig "zzz" "qqq"] : List DigTrack).getD i default).title) = 0) :=
  claim10_blank_iff_all_zero [exDig "zzz" "qqq"] [0] (exPhys "mmm" "nnn") 80
    (by decide) (by decide) (by decide)

end MusicTool
